import Mathlib

/-!
Verification of the indielib repository's IndieAuth core against its
natural-language specification.

The Go sources are shallowly embedded here.  Go strings are byte sequences,
modelled as `List Nat` (each entry a byte value `< 256`).  The repository's
functions `IsValidProfileURL`, `IsValidClientIdentifier`, `CanonicalizeURL`
(parser.go), `ValidateCodeChallenge`, `newVerifier`, `s256Challenge`
(indieauth/challenges.go), `ParseAuthorization`, `ValidateTokenExchange`
(server.go) and `Authenticate` (indieauth/client.go) are translated
definition by definition, together with the parts of Go's standard library
they depend on: `net/url` (parsing, escaping, serialization), `net`
(`ParseIP`, `IsLoopback` via `net/netip`), `crypto/sha256` and
`encoding/base64` (`RawURLEncoding`).
-/

set_option maxRecDepth 10000

namespace IndieLib

/-- Go strings are byte sequences. -/
abbrev Str := List Nat

/-- ASCII Lean string literal to Go byte string (all our literals are ASCII). -/
def str (s : String) : Str := s.data.map Char.toNat

/-- All entries are actual byte values. -/
def Bytes (s : Str) : Prop := ∀ b ∈ s, b < 256

instance : DecidablePred Bytes := fun s =>
  decidable_of_iff (∀ b ∈ s, b < 256) Iff.rfl

/-! ### Generic byte-string helpers (Go `strings` package operations) -/

/-- `strings.HasPrefix` (argument order: `hasPref pre s`). -/
def hasPref : Str → Str → Bool
  | [], _ => true
  | _ :: _, [] => false
  | p :: ps, c :: cs => p = c && hasPref ps cs

/-- Byte membership, `strings.Contains` with a single-byte pattern /
`strings.ContainsRune` / `strings.IndexByte >= 0`. -/
def hasByte (s : Str) (b : Nat) : Bool := s.contains b

/-- Go's `net/url` `split(s, sep, cutc)`: split at the first occurrence of
byte `sep`; the separator is dropped iff `cutc`.  If `sep` does not occur the
result is `(s, [])`. -/
def goSplit : Str → Nat → Bool → Str × Str
  | [], _, _ => ([], [])
  | c :: r, sep, cutc =>
    if c = sep then ([], if cutc then r else c :: r)
    else
      let p := goSplit r sep cutc
      (c :: p.1, p.2)

/-- Decompose around the LAST occurrence of byte `sep`
(`strings.LastIndex` with a one-byte pattern): `s = pre ++ sep :: post` with
`sep ∉ post`.  `none` if `sep` does not occur. -/
def splitLast : Str → Nat → Option (Str × Str)
  | [], _ => none
  | c :: r, sep =>
    match splitLast r sep with
    | some (a, b) => some (c :: a, b)
    | none => if c = sep then some ([], r) else none

/-- Decompose at the FIRST occurrence of the substring `pat`
(`strings.Index`): returns `(before, fromMatchOn)` where the second component
starts with `pat`.  `none` if `pat` does not occur. -/
def splitSub (pat : Str) : Str → Option (Str × Str)
  | [] => if pat.isPrefixOf [] then some ([], []) else none
  | c :: r =>
    if pat.isPrefixOf (c :: r) then some ([], c :: r)
    else
      match splitSub pat r with
      | some (a, b) => some (c :: a, b)
      | none => none

/-- `strings.Contains` for a multi-byte pattern. -/
def hasSub (s pat : Str) : Bool := (splitSub pat s).isSome

/-- ASCII lowercasing.  Go uses `strings.ToLower`, which agrees with this
byte map on the ASCII-only strings (URL schemes) it is applied to here. -/
def toLowerAscii (s : Str) : Str :=
  s.map fun c => if 65 ≤ c ∧ c ≤ 90 then c + 32 else c

/-! ### Go `net/url`: escaping machinery -/

/-- The `encoding` modes of net/url. -/
inductive Enc
  | path | pathSegment | host | zone | userPassword | queryComponent | fragment
deriving DecidableEq

def isAlphaNum (c : Nat) : Bool :=
  (97 ≤ c && c ≤ 122) || (65 ≤ c && c ≤ 90) || (48 ≤ c && c ≤ 57)

/-- net/url `shouldEscape`. -/
def shouldEscape (c : Nat) (m : Enc) : Bool :=
  if isAlphaNum c then false
  else if (m = Enc.host || m = Enc.zone) &&
      (c = 33 || c = 36 || c = 38 || c = 39 || c = 40 || c = 41 || c = 42 ||
       c = 43 || c = 44 || c = 59 || c = 61 || c = 58 || c = 91 || c = 93 ||
       c = 60 || c = 62 || c = 34) then false
  else if c = 45 || c = 95 || c = 46 || c = 126 then false
  else if c = 36 || c = 38 || c = 43 || c = 44 || c = 47 || c = 58 ||
          c = 59 || c = 61 || c = 63 || c = 64 then
    match m with
    | Enc.path => c = 63
    | Enc.pathSegment => c = 47 || c = 59 || c = 44 || c = 63
    | Enc.userPassword => c = 64 || c = 47 || c = 63 || c = 58
    | Enc.queryComponent => true
    | Enc.fragment => false
    | _ => true
  else if m = Enc.fragment && (c = 33 || c = 40 || c = 41 || c = 42) then false
  else true

/-- Upper-case hex digit of a nibble (`upperhex[n]`). -/
def hexUp (n : Nat) : Nat := if n < 10 then 48 + n else 55 + n

def ishex (c : Nat) : Bool :=
  (48 ≤ c && c ≤ 57) || (97 ≤ c && c ≤ 102) || (65 ≤ c && c ≤ 70)

def unhex (c : Nat) : Nat :=
  if 48 ≤ c ∧ c ≤ 57 then c - 48
  else if 97 ≤ c ∧ c ≤ 102 then c - 97 + 10
  else if 65 ≤ c ∧ c ≤ 70 then c - 65 + 10
  else 0

/-- net/url `escape`. -/
def escape : Str → Enc → Str
  | [], _ => []
  | c :: r, m =>
    (if shouldEscape c m then
      if c = 32 ∧ m = Enc.queryComponent then [43]
      else [37, hexUp (c / 16), hexUp (c % 16)]
    else [c]) ++ escape r m

/-- net/url `unescape`; `none` is Go's error return.  The single recursive
pass is extensionally the same as Go's validate-then-build two-pass loop. -/
def unescape : Str → Enc → Option Str
  | [], _ => some []
  | c :: r, m =>
    if c = 37 then
      match r with
      | a :: b :: r2 =>
        if ishex a && ishex b then
          if m = Enc.host ∧ unhex a < 8 ∧ ¬(a = 50 ∧ b = 53) then none
          else if m = Enc.zone ∧ ¬(a = 50 ∧ b = 53) ∧
              ¬(unhex a * 16 + unhex b = 32) ∧
              shouldEscape (unhex a * 16 + unhex b) Enc.host then none
          else (unescape r2 m).map ((unhex a * 16 + unhex b) :: ·)
        else none
      | _ => none
    else if c = 43 then
      (unescape r m).map ((if m = Enc.queryComponent then 32 else 43) :: ·)
    else if (m = Enc.host ∨ m = Enc.zone) ∧ c < 128 ∧ shouldEscape c m then none
    else (unescape r m).map (c :: ·)

/-- net/url `validEncoded`. -/
def validEncoded : Str → Enc → Bool
  | [], _ => true
  | c :: r, m =>
    (if c = 33 || c = 36 || c = 38 || c = 39 || c = 40 || c = 41 || c = 42 ||
        c = 43 || c = 44 || c = 59 || c = 61 || c = 58 || c = 64 then true
     else if c = 91 || c = 93 then true
     else if c = 37 then true
     else !shouldEscape c m) && validEncoded r m

/-- net/url `validOptionalPort`. -/
def validOptionalPort : Str → Bool
  | [] => true
  | c :: r => c = 58 && r.all fun b => 48 ≤ b && b ≤ 57

/-- net/url `validUserinfo`.  Go ranges over runes; a byte ≥ 0x80 starts a
rune outside the allowed (all-ASCII) set, so the byte-wise check is
equivalent. -/
def validUserinfo (s : Str) : Bool :=
  s.all fun c => isAlphaNum c ||
    c = 45 || c = 46 || c = 95 || c = 58 || c = 126 || c = 33 || c = 36 ||
    c = 38 || c = 39 || c = 40 || c = 41 || c = 42 || c = 43 || c = 44 ||
    c = 59 || c = 61 || c = 37 || c = 64

/-- net/url `stringContainsCTLByte`. -/
def containsCTLByte (s : Str) : Bool := s.any fun b => b < 32 || b = 127

/-! ### Go `net/url`: parsing -/

/-- Loop of net/url `getScheme`.  `acc` holds the scheme bytes scanned so
far (`acc ≠ []` iff the loop index is positive); `full` is the whole input,
returned unchanged by the no-scheme outcomes. -/
def getSchemeAux (full : Str) : Str → Str → Option (Str × Str)
  | _, [] => some ([], full)
  | acc, c :: r =>
    if (97 ≤ c ∧ c ≤ 122) ∨ (65 ≤ c ∧ c ≤ 90) then getSchemeAux full (acc ++ [c]) r
    else if (48 ≤ c ∧ c ≤ 57) ∨ c = 43 ∨ c = 45 ∨ c = 46 then
      if acc = [] then some ([], full) else getSchemeAux full (acc ++ [c]) r
    else if c = 58 then
      if acc = [] then none else some (acc, r)
    else some ([], full)

/-- net/url `getScheme`; `none` is the "missing protocol scheme" error. -/
def getScheme (s : Str) : Option (Str × Str) := getSchemeAux s [] s

/-- net/url `Userinfo` (username, password, passwordSet). -/
structure Userinfo where
  username : Str
  password : Str
  passwordSet : Bool
deriving DecidableEq

/-- net/url `parseHost`; `none` is an error return.  Byte 91 is `[`,
93 is `]`, 58 is `:`, and `[37, 50, 53]` is the substring `%25`. -/
def parseHost (host : Str) : Option Str :=
  if hasPref [91] host then
    match splitLast host 93 with
    | none => none
    | some (pre, post) =>
      if ¬validOptionalPort post then none
      else
        match splitSub [37, 50, 53] pre with
        | some (a, b) =>
          match unescape a Enc.host, unescape b Enc.zone,
              unescape (93 :: post) Enc.host with
          | some h1, some h2, some h3 => some (h1 ++ h2 ++ h3)
          | _, _, _ => none
        | none => unescape host Enc.host
  else
    match splitLast host 58 with
    | some (_, post) =>
      if ¬validOptionalPort (58 :: post) then none
      else unescape host Enc.host
    | none => unescape host Enc.host

/-- net/url `parseAuthority`; byte 64 is `@`, 58 is `:`. -/
def parseAuthority (authority : Str) : Option (Option Userinfo × Str) :=
  match splitLast authority 64 with
  | none =>
    match parseHost authority with
    | some h => some (none, h)
    | none => none
  | some (ui, hostRaw) =>
    match parseHost hostRaw with
    | none => none
    | some host =>
      if ¬validUserinfo ui then none
      else if hasByte ui 58 then
        let pr := goSplit ui 58 true
        match unescape pr.1 Enc.userPassword, unescape pr.2 Enc.userPassword with
        | some un, some pw => some (some ⟨un, pw, true⟩, host)
        | _, _ => none
      else
        match unescape ui Enc.userPassword with
        | some un => some (some ⟨un, [], false⟩, host)
        | none => none

/-- net/url `URL.setPath`: returns `(Path, RawPath)`. -/
def setPath (p : Str) : Option (Str × Str) :=
  (unescape p Enc.path).map fun path =>
    (path, if p = escape path Enc.path then [] else p)

/-- net/url `URL.setFragment`: returns `(Fragment, RawFragment)`. -/
def setFragment (f : Str) : Option (Str × Str) :=
  (unescape f Enc.fragment).map fun frag =>
    (frag, if f = escape frag Enc.fragment then [] else f)

/-- net/url `URL`.  `opq` is Go's `URL.Opaque` field. -/
structure GoURL where
  scheme : Str
  opq : Str
  user : Option Userinfo
  host : Str
  path : Str
  rawPath : Str
  omitHost : Bool
  forceQuery : Bool
  rawQuery : Str
  fragment : Str
  rawFragment : Str
deriving DecidableEq

/-- net/url `parse(rawURL, viaRequest := false)`; `none` is an error.
Byte 42 is `*`, 47 is `/`, 58 is `:`, 63 is `?`. -/
def parseInner (rawURL : Str) : Option GoURL :=
  if containsCTLByte rawURL then none
  else if rawURL = [42] then
    some ⟨[], [], none, [], [42], [], false, false, [], [], []⟩
  else
    match getScheme rawURL with
    | none => none
    | some (sch0, restA) =>
      let scheme := toLowerAscii sch0
      -- trailing-? ForceQuery special case, else split the raw query off
      let qp : Str × Str × Bool :=
        if restA.getLast? = some 63 ∧ ¬hasByte restA.dropLast 63 then
          (restA.dropLast, [], true)
        else
          let pr := goSplit restA 63 true
          (pr.1, pr.2, false)
      let rest := qp.1
      if ¬hasPref [47] rest ∧ scheme ≠ [] then
        -- rootless path after a scheme: opaque URL
        some ⟨scheme, rest, none, [], [], [], false, qp.2.2, qp.2.1, [], []⟩
      else if ¬hasPref [47] rest ∧ scheme = [] ∧
          hasByte (goSplit rest 47 true).1 58 then
        none  -- first path segment in URL cannot contain colon
      else if (scheme ≠ [] ∨ ¬hasPref [47, 47, 47] rest) ∧ hasPref [47, 47] rest then
        let pr := goSplit (rest.drop 2) 47 false
        match parseAuthority pr.1 with
        | none => none
        | some (user, host) =>
          (setPath pr.2).map fun pp =>
            ⟨scheme, [], user, host, pp.1, pp.2, false, qp.2.2, qp.2.1, [], []⟩
      else
        (setPath rest).map fun pp =>
          ⟨scheme, [], none, [], pp.1, pp.2,
            decide (scheme ≠ []) && hasPref [47] rest, qp.2.2, qp.2.1, [], []⟩

/-- net/url `Parse`: split the fragment off first (byte 35 is `#`), then
`parse`, then `setFragment`. -/
def goParse (rawURL : Str) : Option GoURL :=
  let pr := goSplit rawURL 35 true
  match parseInner pr.1 with
  | none => none
  | some u =>
    if pr.2 = [] then some u
    else
      match setFragment pr.2 with
      | none => none
      | some fr => some { u with fragment := fr.1, rawFragment := fr.2 }

/-! ### Go `net/url`: serialization -/

/-- net/url `Userinfo.String` (with the nil-receiver convention folded in:
`none` prints as the empty string). -/
def userinfoString : Option Userinfo → Str
  | none => []
  | some ui =>
    escape ui.username Enc.userPassword ++
      (if ui.passwordSet then 58 :: escape ui.password Enc.userPassword else [])

/-- net/url `URL.EscapedPath`. -/
def escapedPath (u : GoURL) : Str :=
  if u.rawPath ≠ [] ∧ validEncoded u.rawPath Enc.path ∧
      unescape u.rawPath Enc.path = some u.path then u.rawPath
  else if u.path = [42] then [42]
  else escape u.path Enc.path

/-- net/url `URL.EscapedFragment`. -/
def escapedFragment (u : GoURL) : Str :=
  if u.rawFragment ≠ [] ∧ validEncoded u.rawFragment Enc.fragment ∧
      unescape u.rawFragment Enc.fragment = some u.fragment then u.rawFragment
  else escape u.fragment Enc.fragment

/-- The `?query` tail written by net/url `URL.String`. -/
def querySuffix (u : GoURL) : Str :=
  if u.forceQuery ∨ u.rawQuery ≠ [] then 63 :: u.rawQuery else []

/-- The `#fragment` tail written by net/url `URL.String`. -/
def fragSuffix (u : GoURL) : Str :=
  if u.fragment ≠ [] then 35 :: escapedFragment u else []

/-- net/url `URL.String`. -/
def urlString (u : GoURL) : Str :=
  let buf1 : Str := if u.scheme ≠ [] then u.scheme ++ [58] else []
  if u.opq ≠ [] then buf1 ++ u.opq ++ querySuffix u ++ fragSuffix u
  else
    let auth : Str :=
      if u.scheme ≠ [] ∨ u.host ≠ [] ∨ u.user ≠ none then
        if u.omitHost ∧ u.host = [] ∧ u.user = none then []
        else
          (if u.host ≠ [] ∨ u.path ≠ [] ∨ u.user ≠ none then [47, 47] else []) ++
          (match u.user with
           | some ui => userinfoString (some ui) ++ [64]
           | none => []) ++
          (if u.host ≠ [] then escape u.host Enc.host else [])
      else []
    let path := escapedPath u
    let slash : Str :=
      if path ≠ [] ∧ path.head? ≠ some 47 ∧ u.host ≠ [] then [47] else []
    let pre := buf1 ++ auth ++ slash
    let dotSlash : Str :=
      if pre = [] ∧ hasByte (goSplit path 47 true).1 58 then [46, 47] else []
    pre ++ dotSlash ++ path ++ querySuffix u ++ fragSuffix u

/-- net/url `splitHostPort`. -/
def splitHostPort (hostPort : Str) : Str × Str :=
  let hp : Str × Str :=
    match splitLast hostPort 58 with
    | some (pre, post) =>
      if validOptionalPort (58 :: post) then (pre, post) else (hostPort, [])
    | none => (hostPort, [])
  if hasPref [91] hp.1 ∧ hp.1.getLast? = some 93 then
    ((hp.1.drop 1).dropLast, hp.2)
  else hp

/-- net/url `URL.Port`. -/
def urlPort (u : GoURL) : Str := (splitHostPort u.host).2

/-! ### Go `net` / `net/netip`: `ParseIP` and `IP.IsLoopback` -/

/-- Loop of netip `parseIPv4`.  State: remaining bytes, current field value,
digit count of the current field, completed fields, and whether we are at the
start of a field (position 0 or just after a dot).  Byte 46 is `.`. -/
def v4loop : Str → Nat → Nat → List Nat → Bool → Option (List Nat)
  | [], val, _, fields, _ =>
    if fields.length < 3 then none else some (fields ++ [val])
  | c :: r, val, digLen, fields, atStart =>
    if 48 ≤ c ∧ c ≤ 57 then
      if digLen = 1 ∧ val = 0 then none  -- leading zero
      else
        let val' := val * 10 + (c - 48)
        if val' > 255 then none
        else v4loop r val' (digLen + 1) fields false
    else if c = 46 then
      if atStart ∨ r = [] then none  -- empty field / trailing dot
      else if fields.length = 3 then none  -- too long
      else v4loop r 0 0 (fields ++ [val]) true
    else none

/-- netip `parseIPv4`: four decimal octets, returned as 4 bytes. -/
def parseIPv4 (s : Str) : Option (List Nat) := v4loop s 0 0 [] true

/-- Hex-field scan of netip `parseIPv6`: returns `(acc, digits, rest)`;
`none` is the field-value-overflow error. -/
def hexRun : Str → Nat → Nat → Option (Nat × Nat × Str)
  | [], acc, digits => some (acc, digits, [])
  | c :: r, acc, digits =>
    if ishex c then
      let acc' := acc * 16 + unhex c
      if acc' > 65535 then none
      else hexRun r acc' (digits + 1)
    else some (acc, digits, c :: r)

/-- Main loop of netip `parseIPv6`.  State: fuel (each iteration consumes at
least one byte, so `s.length + 1` suffices), remaining bytes, accumulated
address bytes (Go's `ip[:i]`), ellipsis byte-position.  Returns the
accumulated bytes, the ellipsis position, and the unconsumed remainder. -/
def v6loop : Nat → Str → List Nat → Option Nat → Option (List Nat × Option Nat × Str)
  | 0, _, _, _ => none
  | fuel + 1, s, ip, ell =>
    if ip.length ≥ 16 then some (ip, ell, s)
    else
      match hexRun s 0 0 with
      | none => none
      | some (acc, digits, rest) =>
        if digits = 0 then none  -- field must have at least one digit
        else if rest.head? = some 46 then
          -- embedded IPv4 at the end; netip parses from the field start
          if ell = none ∧ ip.length ≠ 12 then none
          else if ip.length + 4 > 16 then none
          else
            match parseIPv4 s with
            | none => none
            | some b4 => some (ip ++ b4, ell, [])
        else
          let ip' := ip ++ [acc / 256, acc % 256]
          if rest = [] then some (ip', ell, [])
          else if rest.head? ≠ some 58 then none  -- want colon
          else if rest.length = 1 then none  -- colon must be followed by more
          else
            let r1 := rest.drop 1
            if r1.head? = some 58 then
              if ell ≠ none then none  -- multiple ::
              else
                let r2 := r1.drop 1
                if r2 = [] then some (ip', some ip'.length, [])
                else v6loop fuel r2 ip' (some ip'.length)
            else v6loop fuel r1 ip' ell

/-- netip `parseIPv6`: returns the 16 address bytes and the zone.
Byte 37 is `%`, 58 is `:`. -/
def parseIPv6 (inp : Str) : Option (List Nat × Str) :=
  let pr := goSplit inp 37 true
  if hasByte inp 37 ∧ pr.2 = [] then none  -- zone must be non-empty
  else
    let s := pr.1
    let zone := if hasByte inp 37 then pr.2 else []
    if hasPref [58, 58] s ∧ s.drop 2 = [] then some (List.replicate 16 0, zone)
    else
      let s1 := if hasPref [58, 58] s then s.drop 2 else s
      let ell0 : Option Nat := if hasPref [58, 58] s then some 0 else none
      match v6loop (s1.length + 1) s1 [] ell0 with
      | none => none
      | some (ip, ell, srem) =>
        if srem ≠ [] then none  -- trailing garbage
        else if ip.length < 16 then
          match ell with
          | none => none  -- address string too short
          | some e =>
            some (ip.take e ++ List.replicate (16 - ip.length) 0 ++ ip.drop e, zone)
        else
          match ell with
          | some _ => none  -- :: must expand to at least one field of zeros
          | none => some (ip, zone)

/-- The 16-byte form of an IPv4 address (netip `Addr.As16`). -/
def v4mapped (b : List Nat) : List Nat := [0, 0, 0, 0, 0, 0, 0, 0, 0, 0, 255, 255] ++ b

/-- First of the bytes `.`(46) `:`(58) `%`(37) in the string, the dispatch
of netip `ParseAddr`. -/
def firstSpecial : Str → Option Nat
  | [] => none
  | c :: r => if c = 46 ∨ c = 58 ∨ c = 37 then some c else firstSpecial r

/-- net `ParseIP` (via netip `ParseAddr`; an address with a zone is
rejected), as 16 bytes. -/
def parseIP (s : Str) : Option (List Nat) :=
  match firstSpecial s with
  | some 46 => (parseIPv4 s).map v4mapped
  | some 58 =>
    match parseIPv6 s with
    | some (b, zone) => if zone ≠ [] then none else some b
    | none => none
  | _ => none

/-- net `IP.IsLoopback` on a 16-byte address: an IPv4-mapped address is
loopback iff its first octet is 127; otherwise compare with `::1`. -/
def isLoopback (ip : List Nat) : Bool :=
  if ip.take 12 = [0, 0, 0, 0, 0, 0, 0, 0, 0, 0, 255, 255] then
    (ip.drop 12).head? = some 127
  else ip = [0, 0, 0, 0, 0, 0, 0, 0, 0, 0, 0, 0, 0, 0, 0, 1]

/-! ### parser.go: profile URL and client identifier validation -/

/-- The distinguishable error values of parser.go (plus the wrapped
`url.Parse` error). -/
inductive ProfileError
  | parseError | invalidScheme | emptyPath | invalidPath | invalidFragment
  | userIsSet | portIsSet | isIP | isNonLoopback
deriving DecidableEq, Repr

/-- parser.go `IsValidProfileURL`; `none` means the URL is valid.
Byte 46 is `.`. -/
def IsValidProfileURL (profile : Str) : Option ProfileError :=
  match goParse profile with
  | none => some .parseError
  | some u =>
    if u.scheme ≠ str "http" ∧ u.scheme ≠ str "https" then some .invalidScheme
    else if u.path = [] then some .emptyPath
    else if hasByte u.path 46 ∨ hasSub u.path [46, 46] then some .invalidPath
    else if u.fragment ≠ [] then some .invalidFragment
    else if userinfoString u.user ≠ [] then some .userIsSet
    else if urlPort u ≠ [] then some .portIsSet
    else if (parseIP u.host).isSome then some .isIP
    else none

/-- parser.go `IsValidClientIdentifier`; `none` means the identifier is
valid. -/
def IsValidClientIdentifier (identifier : Str) : Option ProfileError :=
  match goParse identifier with
  | none => some .parseError
  | some u =>
    if u.scheme ≠ str "http" ∧ u.scheme ≠ str "https" then some .invalidScheme
    else if u.path = [] then some .emptyPath
    else if hasByte u.path 46 ∨ hasSub u.path [46, 46] then some .invalidPath
    else if u.fragment ≠ [] then some .invalidFragment
    else if userinfoString u.user ≠ [] then some .userIsSet
    else
      match parseIP u.host with
      | some ip => if ¬isLoopback ip then some .isNonLoopback else none
      | none => none

/-- parser.go `CanonicalizeURL`. -/
def CanonicalizeURL (urlStr : Str) : Str :=
  let s :=
    if ¬hasPref (str "http://") urlStr ∧ ¬hasPref (str "https://") urlStr then
      str "https://" ++ urlStr
    else urlStr
  match goParse s with
  | none => s
  | some u => urlString (if u.path = [] then { u with path := [47] } else u)

/-! ### Go `crypto/sha256` -/

/-- Truncation to a 32-bit word. -/
def w32 (n : Nat) : Nat := n % 4294967296

/-- 32-bit right rotation (argument already a 32-bit word). -/
def rotr32 (n x : Nat) : Nat := w32 (x / 2 ^ n + x % 2 ^ n * 2 ^ (32 - n))

/-- 32-bit bitwise complement (for a 32-bit word this is numerically
`0xFFFFFFFF - x`). -/
def notW (x : Nat) : Nat := 4294967295 - w32 x

def bsig0 (x : Nat) : Nat := rotr32 2 x ^^^ rotr32 13 x ^^^ rotr32 22 x
def bsig1 (x : Nat) : Nat := rotr32 6 x ^^^ rotr32 11 x ^^^ rotr32 25 x
def ssig0 (x : Nat) : Nat := rotr32 7 x ^^^ rotr32 18 x ^^^ (x / 2 ^ 3)
def ssig1 (x : Nat) : Nat := rotr32 17 x ^^^ rotr32 19 x ^^^ (x / 2 ^ 10)
def chF (x y z : Nat) : Nat := (x &&& y) ^^^ (notW x &&& z)
def majF (x y z : Nat) : Nat := (x &&& y) ^^^ (x &&& z) ^^^ (y &&& z)

/-- The SHA-256 round constants. -/
def sha256K : List Nat :=
  [1116352408, 1899447441, 3049323471, 3921009573, 961987163,
   1508970993, 2453635748, 2870763221, 3624381080, 310598401,
   607225278, 1426881987, 1925078388, 2162078206, 2614888103,
   3248222580, 3835390401, 4022224774, 264347078, 604807628,
   770255983, 1249150122, 1555081692, 1996064986, 2554220882,
   2821834349, 2952996808, 3210313671, 3336571891, 3584528711,
   113926993, 338241895, 666307205, 773529912, 1294757372,
   1396182291, 1695183700, 1986661051, 2177026350, 2456956037,
   2730485921, 2820302411, 3259730800, 3345764771, 3516065817,
   3600352804, 4094571909, 275423344, 430227734, 506948616,
   659060556, 883997877, 958139571, 1322822218, 1537002063,
   1747873779, 1955562222, 2024104815, 2227730452, 2361852424,
   2428436474, 2756734187, 3204031479, 3329325298]

/-- SHA-256 working state (eight 32-bit words). -/
structure Sha256State where
  a : Nat
  b : Nat
  c : Nat
  d : Nat
  e : Nat
  f : Nat
  g : Nat
  h : Nat

/-- SHA-256 initial hash value. -/
def sha256Init : Sha256State :=
  ⟨1779033703, 3144134277, 1013904242, 2773480762,
   1359893119, 2600822924, 528734635, 1541459225⟩

/-- Extend a 16-word block to the 64-word message schedule. -/
def sha256Extend (fuel : Nat) (w : List Nat) : List Nat :=
  match fuel with
  | 0 => w
  | fuel + 1 =>
    let t := w.length
    let v := w32 (ssig1 (w.getD (t - 2) 0) + w.getD (t - 7) 0 +
                  ssig0 (w.getD (t - 15) 0) + w.getD (t - 16) 0)
    sha256Extend fuel (w ++ [v])

/-- One round of the SHA-256 compression function. -/
def sha256Round (st : Sha256State) (kw : Nat × Nat) : Sha256State :=
  let t1 := w32 (st.h + bsig1 st.e + chF st.e st.f st.g + kw.1 + kw.2)
  let t2 := w32 (bsig0 st.a + majF st.a st.b st.c)
  ⟨w32 (t1 + t2), st.a, st.b, st.c, w32 (st.d + t1), st.e, st.f, st.g⟩

/-- Process one 64-word schedule from state `st`. -/
def sha256Block (st : Sha256State) (w : List Nat) : Sha256State :=
  let r := (sha256K.zip w).foldl sha256Round st
  ⟨w32 (st.a + r.a), w32 (st.b + r.b), w32 (st.c + r.c), w32 (st.d + r.d),
   w32 (st.e + r.e), w32 (st.f + r.f), w32 (st.g + r.g), w32 (st.h + r.h)⟩

/-- Big-endian 32-bit words from bytes (4 at a time). -/
def bytesToWords : List Nat → List Nat
  | a :: b :: c :: d :: rest =>
    (a * 16777216 + b * 65536 + c * 256 + d) :: bytesToWords rest
  | _ => []

/-- Chunk a byte list into 64-byte blocks (fuel: one block per step). -/
def toBlocks (fuel : Nat) (s : List Nat) : List (List Nat) :=
  match fuel, s with
  | 0, _ => []
  | _, [] => []
  | fuel + 1, s => s.take 64 :: toBlocks fuel (s.drop 64)

/-- Big-endian 64-bit length field. -/
def lenBytes (n : Nat) : List Nat :=
  [n / 2 ^ 56 % 256, n / 2 ^ 48 % 256, n / 2 ^ 40 % 256, n / 2 ^ 32 % 256,
   n / 2 ^ 24 % 256, n / 2 ^ 16 % 256, n / 2 ^ 8 % 256, n % 256]

/-- SHA-256 padding: `0x80`, zeros to 56 mod 64, then the bit length. -/
def sha256Pad (msg : List Nat) : List Nat :=
  msg ++ 128 :: List.replicate ((119 - msg.length % 64) % 64) 0 ++
    lenBytes (msg.length * 8)

/-- Big-endian bytes of the eight state words. -/
def sha256Digest (st : Sha256State) : List Nat :=
  [st.a / 16777216 % 256, st.a / 65536 % 256, st.a / 256 % 256, st.a % 256,
   st.b / 16777216 % 256, st.b / 65536 % 256, st.b / 256 % 256, st.b % 256,
   st.c / 16777216 % 256, st.c / 65536 % 256, st.c / 256 % 256, st.c % 256,
   st.d / 16777216 % 256, st.d / 65536 % 256, st.d / 256 % 256, st.d % 256,
   st.e / 16777216 % 256, st.e / 65536 % 256, st.e / 256 % 256, st.e % 256,
   st.f / 16777216 % 256, st.f / 65536 % 256, st.f / 256 % 256, st.f % 256,
   st.g / 16777216 % 256, st.g / 65536 % 256, st.g / 256 % 256, st.g % 256,
   st.h / 16777216 % 256, st.h / 65536 % 256, st.h / 256 % 256, st.h % 256]

/-- `sha256.Sum256`: the 32-byte SHA-256 digest of a byte string. -/
def sha256 (msg : List Nat) : List Nat :=
  let padded := sha256Pad msg
  let blocks := toBlocks (padded.length / 64 + 1) padded
  sha256Digest (blocks.foldl
    (fun st blk => sha256Block st (sha256Extend 48 (bytesToWords blk))) sha256Init)

/-! ### Go `encoding/base64` `RawURLEncoding` -/

/-- The URL-safe base64 alphabet character for a 6-bit value.  Bytes 45 and
95 are `-` and `_`. -/
def b64urlChar (n : Nat) : Nat :=
  if n < 26 then 65 + n
  else if n < 52 then 71 + n
  else if n < 62 then n - 4
  else if n = 62 then 45
  else 95

/-- `base64.RawURLEncoding.EncodeToString`: URL-safe base64, no padding. -/
def base64RawURL : List Nat → Str
  | [] => []
  | [a] => [b64urlChar (a / 4), b64urlChar (a % 4 * 16)]
  | [a, b] => [b64urlChar (a / 4), b64urlChar (a % 4 * 16 + b / 16),
               b64urlChar (b % 16 * 4)]
  | a :: b :: c :: rest =>
    b64urlChar (a / 4) :: b64urlChar (a % 4 * 16 + b / 16) ::
      b64urlChar (b % 16 * 4 + c / 64) :: b64urlChar (c % 64) ::
      base64RawURL rest

/-! ### indieauth/challenges.go -/

/-- challenges.go `CodeChallengeMethods`. -/
def CodeChallengeMethods : List Str := [str "plain", str "S256"]

/-- challenges.go `containsString`. -/
def containsString : List Str → Str → Bool
  | [], _ => false
  | v :: r, s => if v = s then true else containsString r s

/-- challenges.go `IsValidCodeChallengeMethod`. -/
def IsValidCodeChallengeMethod (ccm : Str) : Bool :=
  containsString CodeChallengeMethods ccm

/-- challenges.go `s256Challenge`:
`base64url_nopad(SHA256(bytes(verifier)))`. -/
def s256Challenge (verifier : Str) : Str := base64RawURL (sha256 verifier)

/-- challenges.go `ValidateCodeChallenge`. -/
def ValidateCodeChallenge (ccm cc ver : Str) : Bool :=
  if ccm = str "plain" then ver = cc
  else if ccm = str "S256" then s256Challenge ver = cc
  else false

/-- challenges.go `newVerifier`, as a function of the 64 bytes produced by
the cryptographic random source (`crypto/rand.Read` into a 64-byte buffer;
the error return corresponds to the random source failing, in which case no
verifier is produced). -/
def newVerifier (randomBytes : List Nat) : Str := base64RawURL randomBytes

/-! ### server.go -/

/-- A parsed form (`url.Values`): association list from field name to the
list of values.  `Get` takes the first value of the first matching key. -/
abbrev Form := List (Str × List Str)

/-- `url.Values.Get`. -/
def formGet (f : Form) (k : Str) : Str :=
  match f.find? fun p => p.1 = k with
  | some (_, v :: _) => v
  | _ => []

/-- Direct indexing `form[key]` (full value slice; empty if absent). -/
def formAll (f : Form) (k : Str) : List Str :=
  match f.find? fun p => p.1 = k with
  | some (_, vs) => vs
  | none => []

/-- server.go `AuthenticationRequest`.  `scopes` is `none` when the Go slice
is nil (a caller-built request), `some` otherwise. -/
structure AuthenticationRequest where
  redirectURI : Str
  clientID : Str
  scopes : Option (List Str)
  state : Str
  codeChallenge : Str
  codeChallengeMethod : Str
deriving DecidableEq

/-- The distinguishable error values of server.go `ValidateTokenExchange`. -/
inductive ExchangeError
  | invalidGrantType | noMatchClientID | noMatchRedirectURI | pkceRequired
  | wrongCodeVerifierLength | wrongCodeChallengeLength
  | invalidCodeChallengeMethod | codeChallengeFailed
deriving DecidableEq, Repr

/-- server.go `ValidateTokenExchange`; `none` is a valid exchange.  The
server's only relevant configuration is the `RequirePKCE` flag; the inbound
request is its parsed form. -/
def ValidateTokenExchange (requirePKCE : Bool)
    (authRequest : AuthenticationRequest) (form : Form) : Option ExchangeError :=
  let grantType0 := formGet form (str "grant_type")
  let grantType := if grantType0 = [] then str "authorization_code" else grantType0
  if grantType ≠ str "authorization_code" then some .invalidGrantType
  else
    let clientID := formGet form (str "client_id")
    let redirectURI := formGet form (str "redirect_uri")
    if authRequest.clientID ≠ clientID then some .noMatchClientID
    else if authRequest.redirectURI ≠ redirectURI then some .noMatchRedirectURI
    else if authRequest.codeChallenge = [] then
      if requirePKCE then some .pkceRequired else none
    else
      let codeVerifier := formGet form (str "code_verifier")
      if codeVerifier.length < 43 ∨ codeVerifier.length > 128 then
        some .wrongCodeVerifierLength
      else if authRequest.codeChallenge.length < 43 ∨
          authRequest.codeChallenge.length > 128 then
        some .wrongCodeChallengeLength
      else if ¬IsValidCodeChallengeMethod authRequest.codeChallengeMethod then
        some .invalidCodeChallengeMethod
      else if ¬ValidateCodeChallenge authRequest.codeChallengeMethod
          authRequest.codeChallenge codeVerifier then
        some .codeChallengeFailed
      else none

/-- The distinguishable error outcomes of server.go `ParseAuthorization`. -/
inductive AuthError
  | invalidResponseType
  | invalidClientIdentifier (e : ProfileError)
  | invalidRedirectURI
  | wrongCodeChallengeLength
  | invalidCodeChallengeMethod
  | pkceRequired
deriving DecidableEq, Repr

/-- server.go `validateRedirectURI`: both URLs must parse and their hosts
must match exactly (the two parse errors and the mismatch error are all
reported by `ParseAuthorization` as `invalidRedirectURI`). -/
def validateRedirectURI (clientID redirectURI : Str) : Bool :=
  match goParse clientID, goParse redirectURI with
  | some c, some r => r.host = c.host
  | _, _ => false

/-- `strings.Split(s, " ")` (byte 32). -/
def splitSpace : Str → List Str
  | [] => [[]]
  | c :: r =>
    let rest := splitSpace r
    if c = 32 then [] :: rest
    else
      match rest with
      | p :: ps => (c :: p) :: ps
      | [] => [[c]]

/-- server.go `ParseAuthorization`; the request's parsed form is passed
directly (`r.ParseForm` failures concern transport-level body reading and
are outside this model). -/
def ParseAuthorization (requirePKCE : Bool) (form : Form) :
    Except AuthError AuthenticationRequest :=
  let resType0 := formGet form (str "response_type")
  let resType := if resType0 = [] then str "code" else resType0
  if resType ≠ str "code" then .error .invalidResponseType
  else
    let clientID := formGet form (str "client_id")
    match IsValidClientIdentifier clientID with
    | some e => .error (.invalidClientIdentifier e)
    | none =>
      let redirectURI := formGet form (str "redirect_uri")
      if ¬validateRedirectURI clientID redirectURI then .error .invalidRedirectURI
      else
        let cc := formGet form (str "code_challenge")
        let scope := formGet form (str "scope")
        let scopes : List Str :=
          if scope ≠ [] then splitSpace scope
          else if (formAll form (str "scopes")).length > 0 then
            formAll form (str "scopes")
          else []
        if cc ≠ [] then
          if cc.length < 43 ∨ cc.length > 128 then .error .wrongCodeChallengeLength
          else
            let ccm := formGet form (str "code_challenge_method")
            if ¬IsValidCodeChallengeMethod ccm then .error .invalidCodeChallengeMethod
            else .ok ⟨redirectURI, clientID, some scopes,
              formGet form (str "state"), cc, ccm⟩
        else if requirePKCE then .error .pkceRequired
        else .ok ⟨redirectURI, clientID, some scopes,
          formGet form (str "state"), [], []⟩

/-! ### indieauth/client.go -/

/-- client.go `Metadata` (the JSON-decoded server metadata document). -/
structure Metadata where
  issuer : Str
  authorizationEndpoint : Str
  tokenEndpoint : Str
  introspectionEndpoint : Str
  introspectionEndpointAuthMethodsSupported : List Str
  revocationEndpoint : Str
  revocationEndpointAuthMethodsSupported : List Str
  scopesSupported : List Str
  responseTypesSupported : List Str
  grantTypesSupported : List Str
  serviceDocumentation : List Str
  codeChallengeMethodsSupported : List Str
  authorizationResponseIssParameterSupported : Bool
  userInfoEndpoint : Str
deriving DecidableEq

/-- client.go `AuthInfo`. -/
structure AuthInfo where
  metadata : Metadata
  me : Str
  state : Str
  codeVerifier : Str
deriving DecidableEq

/-- client.go `newState`, as a function of the 64 random bytes. -/
def newState (randomBytes : List Nat) : Str := base64RawURL randomBytes

/-- client.go `Client.Authenticate`, restricted to its returned `AuthInfo`.
The outcome of endpoint discovery (`DiscoverMetadata`, an outbound HTTP
exchange) and the outputs of the random source backing `newState` and
`newVerifier` are parameters; on discovery or random-source failure the
function returns an error and no `AuthInfo`.  The accompanying authorization
redirect URL is built by the external oauth2 package and carries no state
into `AuthInfo`. -/
def Authenticate (discovery : Option Metadata)
    (stateBytes verifierBytes : List Nat) (profile : Str) : Option AuthInfo :=
  match discovery with
  | none => none
  | some m =>
    some ⟨m, profile, newState stateBytes, newVerifier verifierBytes⟩

/-! ## Supporting lemmas -/

/-- Length of the unpadded URL-safe base64 encoding. -/
theorem base64RawURL_length (b : List Nat) :
    (base64RawURL b).length =
      b.length / 3 * 4 +
        (if b.length % 3 = 0 then 0 else if b.length % 3 = 1 then 2 else 3) := by
  induction b using base64RawURL.induct
  case case1 => simp [base64RawURL]
  case case2 a => simp [base64RawURL]
  case case3 a c => simp [base64RawURL]
  case case4 a c d rest ih =>
    simp only [base64RawURL, List.length_cons, ih]
    split_ifs <;> omega

/-- A SHA-256 digest always has 32 bytes. -/
theorem sha256_length (msg : List Nat) : (sha256 msg).length = 32 := rfl

/-- An S256 code challenge always has 43 characters. -/
theorem s256Challenge_length (v : Str) : (s256Challenge v).length = 43 := by
  have h := base64RawURL_length (sha256 v)
  rw [sha256_length] at h
  simpa [s256Challenge] using h

/-! ## Claims -/

/-- C2, counterexample: `newVerifier` encodes 64 random bytes with unpadded
URL-safe base64, which yields 86 characters, not the 43 the claim states;
evaluated at the all-zero outcome of the random source. -/
theorem C2_counterexample :
    (newVerifier (List.replicate 64 0)).length = 86 ∧ (86 : Nat) ≠ 43 := by decide

/-- C2 (amended): for every outcome of the random source, `newVerifier`
produces a code verifier of exactly 86 characters after URL-safe base64
encoding (no padding) of 64 bytes of cryptographically secure random
data. -/
theorem C2_amended (b : List Nat) (h : b.length = 64) :
    (newVerifier b).length = 86 := by
  have hl := base64RawURL_length b
  rw [h] at hl
  simpa [newVerifier] using hl

/-- C2, witness for the amended theorem at the all-zero random outcome. -/
theorem C2_witness :
    (List.replicate 64 (0 : Nat)).length = 64 ∧
      (newVerifier (List.replicate 64 0)).length = 86 :=
  ⟨by decide, C2_amended (List.replicate 64 0) (by decide)⟩

/-- C5: `ValidateCodeChallenge` is total over arbitrary strings: for method
`plain` it returns true exactly when challenge equals verifier character for
character, for `S256` exactly when `S256Challenge(verifier)` equals the
challenge, and for every other method it returns false (being a total
function, it never raises). -/
theorem C5_validateCodeChallenge (m cc v : Str) :
    ValidateCodeChallenge m cc v =
      if m = str "plain" then decide (cc = v)
      else if m = str "S256" then decide (s256Challenge v = cc)
      else false := by
  unfold ValidateCodeChallenge
  split_ifs <;> simp [eq_comm]

/-- C8: every code verifier generated by `newVerifier` (64 random bytes,
base64url) has length in [43, 128]; hence the `CodeVerifier` stored in every
`AuthInfo` returned by a successful `Authenticate` has length in [43, 128];
and `s256Challenge` applied to any string yields exactly 43 characters. -/
theorem C8_verifier_length_invariant :
    (∀ b : List Nat, b.length = 64 →
      43 ≤ (newVerifier b).length ∧ (newVerifier b).length ≤ 128) ∧
    (∀ (d : Option Metadata) (st vb : List Nat) (profile : Str) (ai : AuthInfo),
      vb.length = 64 → Authenticate d st vb profile = some ai →
      43 ≤ ai.codeVerifier.length ∧ ai.codeVerifier.length ≤ 128) ∧
    (∀ v : Str, (s256Challenge v).length = 43) := by
  refine ⟨fun b hb => ?_, fun d st vb profile ai hvb hA => ?_, s256Challenge_length⟩
  · rw [C2_amended b hb]; omega
  · match d, hA with
    | some m, hA =>
      cases hA.symm
      simpa using (by rw [C2_amended vb hvb]; omega :
        43 ≤ (newVerifier vb).length ∧ (newVerifier vb).length ≤ 128)

/-- C8, witness: the invariant instantiated at the all-zero random outcome
and an arbitrary discovered metadata document. -/
theorem C8_witness :
    (List.replicate 64 (0 : Nat)).length = 64 ∧
      (43 ≤ (newVerifier (List.replicate 64 0)).length ∧
        (newVerifier (List.replicate 64 0)).length ≤ 128) ∧
      (s256Challenge []).length = 43 :=
  ⟨by decide,
    C8_verifier_length_invariant.1 (List.replicate 64 0) (by decide),
    C8_verifier_length_invariant.2.2 []⟩

/-- C4: for every stored request and every inbound exchange request whose
`grant_type` is `authorization_code` or absent, a `client_id` differing from
the stored `ClientID` makes `ValidateTokenExchange` fail with
`NoMatchClientID`, regardless of the `RequirePKCE` configuration and of any
challenge or verifier fields. -/
theorem C4_clientid_mismatch (requirePKCE : Bool) (ar : AuthenticationRequest)
    (form : Form)
    (hg : formGet form (str "grant_type") = [] ∨
      formGet form (str "grant_type") = str "authorization_code")
    (hc : formGet form (str "client_id") ≠ ar.clientID) :
    ValidateTokenExchange requirePKCE ar form =
      some ExchangeError.noMatchClientID := by
  have hc' : ar.clientID ≠ formGet form (str "client_id") := fun h => hc h.symm
  unfold ValidateTokenExchange
  rcases hg with h | h <;> simp [h, hc']

/-- C4, witness: a mismatched `client_id` at a concrete stored request and
form, with PKCE required and a stored challenge present. -/
theorem C4_witness :
    ValidateTokenExchange true
      ⟨str "https://example.com/callback", str "https://example.com/", none,
        [], List.replicate 50 97, str "plain"⟩
      [(str "client_id", [str "https://example.org/"]),
       (str "redirect_uri", [str "https://example.com/callback"])] =
      some ExchangeError.noMatchClientID :=
  C4_clientid_mismatch true _ _ (Or.inl (by decide)) (by decide)

/-- C1, counterexample: with a stored (non-empty) `CodeChallenge` of one
character `b`, method `plain`, matching `client_id`/`redirect_uri`, absent
`grant_type`, and a 43-character inbound `code_verifier`, the validator
returns `WrongCodeChallengeLength` (the defensive stored-challenge length
check) even though the claim requires `CodeChallengeFailed` whenever
`ValidateCodeChallenge` is false and the verifier length is in [43, 128]. -/
theorem C1_counterexample :
    ValidateTokenExchange false
      ⟨str "https://example.com/callback", str "https://example.com/", none,
        [], [98], str "plain"⟩
      [(str "client_id", [str "https://example.com/"]),
       (str "redirect_uri", [str "https://example.com/callback"]),
       (str "code_verifier", [List.replicate 43 97])] =
      some ExchangeError.wrongCodeChallengeLength ∧
    (43 ≤ (List.replicate 43 97).length ∧ (List.replicate 43 97).length ≤ 128) ∧
    ValidateCodeChallenge (str "plain") [98] (List.replicate 43 97) = false ∧
    some ExchangeError.wrongCodeChallengeLength ≠
      some ExchangeError.codeChallengeFailed ∧
    some ExchangeError.wrongCodeChallengeLength ≠
      (none : Option ExchangeError) := by
  refine ⟨by decide, by decide, by decide, by decide, by decide⟩

/-- C1 (amended): for every stored request whose `CodeChallenge` is
non-empty, HAS LENGTH IN [43, 128] AND A VALID METHOD (`plain` or `S256`) —
the two defensive checks the original claim omitted — and every inbound
exchange with matching `client_id` and `redirect_uri` and `grant_type`
`authorization_code` or absent: the exchange fails with
`WrongCodeVerifierLength` whenever the inbound `code_verifier` length is
outside [43, 128]; otherwise it succeeds exactly when
`ValidateCodeChallenge(method, challenge, verifier)` is true, and fails with
`CodeChallengeFailed` when that is false.  In particular a stored `plain`
challenge of 50 `a`s succeeds against a 50-`a` verifier and fails with
`CodeChallengeFailed` against a 51-`a` verifier. -/
theorem C1_amended :
    (∀ (requirePKCE : Bool) (ar : AuthenticationRequest) (form : Form),
      (formGet form (str "grant_type") = [] ∨
        formGet form (str "grant_type") = str "authorization_code") →
      formGet form (str "client_id") = ar.clientID →
      formGet form (str "redirect_uri") = ar.redirectURI →
      ar.codeChallenge ≠ [] →
      43 ≤ ar.codeChallenge.length → ar.codeChallenge.length ≤ 128 →
      IsValidCodeChallengeMethod ar.codeChallengeMethod = true →
      (((formGet form (str "code_verifier")).length < 43 ∨
          128 < (formGet form (str "code_verifier")).length) →
        ValidateTokenExchange requirePKCE ar form =
          some ExchangeError.wrongCodeVerifierLength) ∧
      (43 ≤ (formGet form (str "code_verifier")).length →
        (formGet form (str "code_verifier")).length ≤ 128 →
        (ValidateTokenExchange requirePKCE ar form = none ↔
          ValidateCodeChallenge ar.codeChallengeMethod ar.codeChallenge
            (formGet form (str "code_verifier")) = true) ∧
        (ValidateCodeChallenge ar.codeChallengeMethod ar.codeChallenge
            (formGet form (str "code_verifier")) = false →
          ValidateTokenExchange requirePKCE ar form =
            some ExchangeError.codeChallengeFailed))) ∧
    ValidateTokenExchange false
      ⟨str "https://example.com/callback", str "https://example.com/", none,
        [], List.replicate 50 97, str "plain"⟩
      [(str "client_id", [str "https://example.com/"]),
       (str "redirect_uri", [str "https://example.com/callback"]),
       (str "code_verifier", [List.replicate 50 97])] = none ∧
    ValidateTokenExchange false
      ⟨str "https://example.com/callback", str "https://example.com/", none,
        [], List.replicate 50 97, str "plain"⟩
      [(str "client_id", [str "https://example.com/"]),
       (str "redirect_uri", [str "https://example.com/callback"]),
       (str "code_verifier", [List.replicate 51 97])] =
      some ExchangeError.codeChallengeFailed := by
  refine ⟨?_, by decide, by decide⟩
  intro requirePKCE ar form hg hcid hruri hcc hlo hhi hccm
  have hcid' : ar.clientID = formGet form (str "client_id") := hcid.symm
  have hruri' : ar.redirectURI = formGet form (str "redirect_uri") := hruri.symm
  constructor
  · intro hlen
    unfold ValidateTokenExchange
    rcases hg with h | h <;>
      simp [h, hcid', hruri', hcc, hlen, Nat.not_lt.mpr hlo, Nat.not_lt.mpr hhi]
  · intro hv43 hv128
    unfold ValidateTokenExchange
    cases hVC : ValidateCodeChallenge ar.codeChallengeMethod ar.codeChallenge
        (formGet form (str "code_verifier")) <;>
    rcases hg with h | h <;>
      simp [h, hcid', hruri', hcc, Nat.not_lt.mpr hv43, Nat.not_lt.mpr hv128,
        Nat.not_lt.mpr hlo, Nat.not_lt.mpr hhi, hccm, hVC]

/-- C1, witness for the amended theorem: the 50-`a` stored `plain` challenge
against a 50-`a` verifier. -/
theorem C1_witness :
    (ValidateTokenExchange false
      ⟨str "https://example.com/callback", str "https://example.com/", none,
        [], List.replicate 50 97, str "plain"⟩
      [(str "client_id", [str "https://example.com/"]),
       (str "redirect_uri", [str "https://example.com/callback"]),
       (str "code_verifier", [List.replicate 50 97])] = none ↔
      ValidateCodeChallenge (str "plain") (List.replicate 50 97)
        (formGet
          [(str "client_id", [str "https://example.com/"]),
           (str "redirect_uri", [str "https://example.com/callback"]),
           (str "code_verifier", [List.replicate 50 97])]
          (str "code_verifier")) = true) :=
  ((C1_amended.1 false
    ⟨str "https://example.com/callback", str "https://example.com/", none,
      [], List.replicate 50 97, str "plain"⟩
    [(str "client_id", [str "https://example.com/"]),
     (str "redirect_uri", [str "https://example.com/callback"]),
     (str "code_verifier", [List.replicate 50 97])]
    (Or.inl (by decide)) (by decide) (by decide) (by decide) (by decide)
    (by decide) (by decide)).2 (by decide) (by decide)).1

instance {a b : Type} [DecidableEq a] [DecidableEq b] :
    DecidableEq (Except a b) := fun x y =>
  match x, y with
  | .ok u, .ok v =>
    if h : u = v then isTrue (by rw [h]) else isFalse (by simp [h])
  | .error u, .error v =>
    if h : u = v then isTrue (by rw [h]) else isFalse (by simp [h])
  | .ok _, .error _ => isFalse (by simp)
  | .error _, .ok _ => isFalse (by simp)

/-- The fixed method set, unfolded. -/
theorem isValidCCM_iff (m : Str) :
    IsValidCodeChallengeMethod m = true ↔ (m = str "plain" ∨ m = str "S256") := by
  simp only [IsValidCodeChallengeMethod, CodeChallengeMethods, containsString]
  constructor
  · intro h
    by_cases h1 : str "plain" = m
    · exact Or.inl h1.symm
    · by_cases h2 : str "S256" = m
      · exact Or.inr h2.symm
      · simp [h1, h2] at h
  · rintro (rfl | rfl) <;> simp

/-- A stored request satisfying the parser's challenge invariant can never
reach the defensive stored-challenge branches of `ValidateTokenExchange`. -/
theorem vte_no_defensive (rp : Bool) (ar : AuthenticationRequest) (form : Form)
    (hinv : ar.codeChallenge = [] ∨
      (43 ≤ ar.codeChallenge.length ∧ ar.codeChallenge.length ≤ 128 ∧
        IsValidCodeChallengeMethod ar.codeChallengeMethod = true)) :
    ValidateTokenExchange rp ar form ≠ some ExchangeError.wrongCodeChallengeLength ∧
    ValidateTokenExchange rp ar form ≠ some ExchangeError.invalidCodeChallengeMethod := by
  rcases hinv with h | ⟨h1, h2, h3⟩ <;>
    simp only [ValidateTokenExchange] <;>
    split_ifs <;> simp_all <;> omega

/-- C10: every `AuthenticationRequest` returned by a successful
`ParseAuthorization` has a non-nil `Scopes` sequence, and either both
challenge fields empty or a challenge of length in [43, 128] with method
`plain` or `S256`; consequently `ValidateTokenExchange` applied to such a
request can never return its defensive stored-challenge length or method
errors. -/
theorem C10_parse_invariant (requirePKCE : Bool) (form : Form)
    (req : AuthenticationRequest)
    (h : ParseAuthorization requirePKCE form = .ok req) :
    req.scopes ≠ none ∧
    ((req.codeChallenge = [] ∧ req.codeChallengeMethod = []) ∨
      (43 ≤ req.codeChallenge.length ∧ req.codeChallenge.length ≤ 128 ∧
        (req.codeChallengeMethod = str "plain" ∨
          req.codeChallengeMethod = str "S256"))) ∧
    (∀ (rp2 : Bool) (form2 : Form),
      ValidateTokenExchange rp2 req form2 ≠
        some ExchangeError.wrongCodeChallengeLength ∧
      ValidateTokenExchange rp2 req form2 ≠
        some ExchangeError.invalidCodeChallengeMethod) := by
  have hmain : req.scopes ≠ none ∧
      ((req.codeChallenge = [] ∧ req.codeChallengeMethod = []) ∨
        (43 ≤ req.codeChallenge.length ∧ req.codeChallenge.length ≤ 128 ∧
          (req.codeChallengeMethod = str "plain" ∨
            req.codeChallengeMethod = str "S256"))) := by
    simp only [ParseAuthorization] at h
    repeat' split at h
    all_goals cases h
    all_goals try exact ⟨by simp, Or.inl ⟨rfl, rfl⟩⟩
    all_goals
      refine ⟨by simp, Or.inr ⟨?_, ?_, ?_⟩⟩ <;> dsimp only <;>
        first
        | omega
        | tauto
        | (simp_all [isValidCCM_iff]; tauto)
  refine ⟨hmain.1, hmain.2, fun rp2 form2 => vte_no_defensive rp2 req form2 ?_⟩
  rcases hmain.2 with ⟨h1, _⟩ | ⟨h1, h2, h3⟩
  · exact Or.inl h1
  · exact Or.inr ⟨h1, h2, (isValidCCM_iff _).mpr h3⟩

/-- C10, witness: a concrete parsed request with a 43-character `plain`
challenge. -/
theorem C10_witness :
    ∃ req, ParseAuthorization true
      [(str "response_type", [str "code"]),
       (str "client_id", [str "https://example.com/"]),
       (str "redirect_uri", [str "https://example.com/callback"]),
       (str "state", [str "abc123"]),
       (str "code_challenge", [List.replicate 43 97]),
       (str "code_challenge_method", [str "plain"])] = .ok req ∧
    req.scopes ≠ none ∧
    ((req.codeChallenge = [] ∧ req.codeChallengeMethod = []) ∨
      (43 ≤ req.codeChallenge.length ∧ req.codeChallenge.length ≤ 128 ∧
        (req.codeChallengeMethod = str "plain" ∨
          req.codeChallengeMethod = str "S256"))) := by
  refine ⟨⟨str "https://example.com/callback", str "https://example.com/",
    some [], str "abc123", List.replicate 43 97, str "plain"⟩,
    ?_, ?_⟩
  · decide
  · have := C10_parse_invariant true
      [(str "response_type", [str "code"]),
       (str "client_id", [str "https://example.com/"]),
       (str "redirect_uri", [str "https://example.com/callback"]),
       (str "state", [str "abc123"]),
       (str "code_challenge", [List.replicate 43 97]),
       (str "code_challenge_method", [str "plain"])]
      ⟨str "https://example.com/callback", str "https://example.com/",
        some [], str "abc123", List.replicate 43 97, str "plain"⟩
      (by decide)
    exact ⟨this.1, this.2.1⟩

/-- First error in an ordered list of independent check results. -/
def firstSome {α : Type} : List (Option α) → Option α
  | [] => none
  | some e :: _ => some e
  | none :: r => firstSome r

/-- The eight post-parse checks of `IsValidProfileURL`, as independent
predicates in the source's order. -/
def profileChecks (u : GoURL) : List (Option ProfileError) :=
  [if u.scheme ≠ str "http" ∧ u.scheme ≠ str "https" then some .invalidScheme else none,
   if u.path = [] then some .emptyPath else none,
   if hasByte u.path 46 ∨ hasSub u.path [46, 46] then some .invalidPath else none,
   if u.fragment ≠ [] then some .invalidFragment else none,
   if userinfoString u.user ≠ [] then some .userIsSet else none,
   if urlPort u ≠ [] then some .portIsSet else none,
   if (parseIP u.host).isSome then some .isIP else none]

/-- C3: `IsValidProfileURL` runs its checks in the exact order parse,
scheme, non-empty path, dot-free path, fragment, userinfo, port, IP host,
returning the first violated check's error with no accumulation; and every
parsed URL with an http/https scheme whose non-empty path contains a literal
dot anywhere is rejected with `InvalidPath` — e.g.
`https://example.com/file.html`. -/
theorem C3_profile_check_order :
    (∀ s : Str, IsValidProfileURL s =
      match goParse s with
      | none => some ProfileError.parseError
      | some u => firstSome (profileChecks u)) ∧
    (∀ (s : Str) (u : GoURL), goParse s = some u →
      (u.scheme = str "http" ∨ u.scheme = str "https") →
      u.path ≠ [] → hasByte u.path 46 = true →
      IsValidProfileURL s = some ProfileError.invalidPath) ∧
    IsValidProfileURL (str "https://example.com/file.html") =
      some ProfileError.invalidPath := by
  refine ⟨fun s => ?_, fun s u hu hsch hp hdot => ?_, by decide⟩
  · unfold IsValidProfileURL
    cases goParse s with
    | none => rfl
    | some u =>
      simp only [profileChecks, firstSome]
      split_ifs <;> simp [firstSome]
  · unfold IsValidProfileURL
    rw [hu]
    have h1 : ¬(u.scheme ≠ str "http" ∧ u.scheme ≠ str "https") := by tauto
    simp [h1, hp, hdot]

/-- C3, witness: the dot-path rejection at `https://example.com/file.html`,
through the parsed URL. -/
theorem C3_witness :
    IsValidProfileURL (str "https://example.com/file.html") =
      some ProfileError.invalidPath :=
  C3_profile_check_order.2.1 (str "https://example.com/file.html")
    ⟨str "https", [], none, str "example.com", str "/file.html", [],
      false, false, [], [], []⟩
    (by decide) (Or.inr (by decide)) (by decide) (by decide)

/-- C7, counterexample: on the input `%` (no scheme prefix), parsing fails
and `CanonicalizeURL` returns `https://%` — the prefixed string, not the
input unchanged. -/
theorem C7_counterexample :
    goParse (str "https://%") = none ∧
    CanonicalizeURL (str "%") = str "https://%" ∧
    CanonicalizeURL (str "%") ≠ str "%" := by
  refine ⟨by decide, by decide, by decide⟩

/-- C7 (amended): `CanonicalizeURL` never raises (it is a total function);
when URL parsing fails it returns the string it attempted to parse: the
input unchanged when the input already starts with `http://` or `https://`,
and otherwise the input with `https://` prepended. -/
theorem C7_amended (s : Str)
    (h : goParse (if ¬hasPref (str "http://") s ∧ ¬hasPref (str "https://") s
      then str "https://" ++ s else s) = none) :
    CanonicalizeURL s =
      (if ¬hasPref (str "http://") s ∧ ¬hasPref (str "https://") s
        then str "https://" ++ s else s) ∧
    ((hasPref (str "http://") s = true ∨ hasPref (str "https://") s = true) →
      CanonicalizeURL s = s) := by
  constructor
  · simp only [CanonicalizeURL]
    rw [h]
  · intro hpre
    have hcond : ¬(¬hasPref (str "http://") s = true ∧
        ¬hasPref (str "https://") s = true) := by
      rcases hpre with h1 | h1 <;> simp [h1]
    rw [if_neg hcond] at h
    simp only [CanonicalizeURL, if_neg hcond]
    rw [h]

/-- C7, witness for the amended theorem at the unparsable prefixed input
`https://%`. -/
theorem C7_witness :
    CanonicalizeURL (str "https://%") =
      (if ¬hasPref (str "http://") (str "https://%") ∧
          ¬hasPref (str "https://") (str "https://%")
        then str "https://" ++ str "https://%" else str "https://%") ∧
    ((hasPref (str "http://") (str "https://%") = true ∨
        hasPref (str "https://") (str "https://%") = true) →
      CanonicalizeURL (str "https://%") = str "https://%") :=
  C7_amended (str "https://%") (by decide)

/-! ### Lemmas for C9: `ParseIP` on dotted hosts that carry a port -/

/-- `parseIPv4` rejects any string containing a colon. -/
theorem v4loop_colon : ∀ (s : Str), 58 ∈ s → ∀ val dig fields atStart,
    v4loop s val dig fields atStart = none := by
  intro s
  induction s with
  | nil => intro h; cases h
  | cons c r ih =>
    intro hmem val dig fields atStart
    rcases List.mem_cons.mp hmem with hc | hc
    · subst hc
      simp [v4loop]
    · unfold v4loop
      dsimp only
      split_ifs <;> first | rfl | exact ih hc _ _ _ _

theorem parseIPv4_colon (s : Str) (h : 58 ∈ s) : parseIPv4 s = none :=
  v4loop_colon s h 0 0 [] true

/-- Every dot in the string is followed (strictly later) by a colon. -/
def dotsColon : Str → Prop
  | [] => True
  | c :: r => (c = 46 → 58 ∈ r) ∧ dotsColon r

theorem dotsColon_suffix : ∀ a b : Str, dotsColon (a ++ b) → dotsColon b := by
  intro a
  induction a with
  | nil => exact fun b h => h
  | cons c r ih => exact fun b h => ih b h.2

theorem dotsColon_colon : ∀ s : Str, dotsColon s → 46 ∈ s → 58 ∈ s := by
  intro s
  induction s with
  | nil => intro _ h; cases h
  | cons c r ih =>
    intro hd hm
    rcases List.mem_cons.mp hm with h | h
    · exact List.mem_cons_of_mem _ (hd.1 h.symm)
    · exact List.mem_cons_of_mem _ (ih hd.2 h)

/-- `hexRun` only consumes hex digits, so a dot survives into the rest. -/
theorem hexRun_mem46 : ∀ (s : Str) (acc d acc' d' : Nat) (rest : Str),
    hexRun s acc d = some (acc', d', rest) → 46 ∈ s → 46 ∈ rest := by
  intro s
  induction s with
  | nil => intro _ _ _ _ _ h hm; cases hm
  | cons c r ih =>
    intro acc d acc' d' rest h hm
    unfold hexRun at h
    dsimp only at h
    by_cases hc : ishex c = true
    · rw [if_pos hc] at h
      split at h
      · cases h
      · rcases List.mem_cons.mp hm with h46 | h46
        · rw [← h46] at hc; cases hc
        · exact ih _ _ _ _ _ h h46
    · rw [if_neg hc] at h
      cases h
      exact hm

/-- The rest returned by `hexRun` is a suffix. -/
theorem hexRun_suffix : ∀ (s : Str) (acc d acc' d' : Nat) (rest : Str),
    hexRun s acc d = some (acc', d', rest) → ∃ pre, s = pre ++ rest := by
  intro s
  induction s with
  | nil =>
    intro _ _ _ _ _ h
    cases h
    exact ⟨[], rfl⟩
  | cons c r ih =>
    intro acc d acc' d' rest h
    unfold hexRun at h
    dsimp only at h
    by_cases hc : ishex c = true
    · rw [if_pos hc] at h
      split at h
      · cases h
      · obtain ⟨pre, hpre⟩ := ih _ _ _ _ _ h
        exact ⟨c :: pre, by rw [List.cons_append, ← hpre]⟩
    · rw [if_neg hc] at h
      cases h
      exact ⟨[], rfl⟩

/-- The IPv6 loop on a string that contains a dot, with a colon after every
dot, either errors or leaves a non-empty remainder (which the caller then
rejects as trailing garbage). -/
theorem v6loop_dot : ∀ (fuel : Nat) (s : Str) (ip : List Nat) (ell : Option Nat),
    dotsColon s → 46 ∈ s →
    v6loop fuel s ip ell = none ∨
      ∃ p, v6loop fuel s ip ell = some p ∧ p.2.2 ≠ [] := by
  intro fuel
  induction fuel with
  | zero => exact fun s ip ell _ _ => Or.inl rfl
  | succ n ih =>
    intro s ip ell hd hm
    unfold v6loop
    by_cases h16 : ip.length ≥ 16
    · rw [if_pos h16]
      refine Or.inr ⟨(ip, ell, s), rfl, ?_⟩
      show s ≠ []
      intro hnil
      rw [hnil] at hm
      cases hm
    · rw [if_neg h16]
      cases hhr : hexRun s 0 0 with
      | none => exact Or.inl rfl
      | some t =>
        obtain ⟨acc, digits, rest⟩ := t
        obtain ⟨pre, hpre⟩ := hexRun_suffix s 0 0 acc digits rest hhr
        have hrest46 : 46 ∈ rest := hexRun_mem46 s 0 0 acc digits rest hhr hm
        have hdrest : dotsColon rest := by
          rw [hpre] at hd
          exact dotsColon_suffix pre rest hd
        have hrestne : rest ≠ [] := by
          intro hnil
          rw [hnil] at hrest46
          cases hrest46
        dsimp only
        by_cases hdig : digits = 0
        · rw [if_pos hdig]
          exact Or.inl rfl
        · rw [if_neg hdig]
          by_cases hh46 : rest.head? = some 46
          · rw [if_pos hh46]
            have h58 : 58 ∈ s := dotsColon_colon s hd hm
            rw [parseIPv4_colon s h58]
            split_ifs <;> exact Or.inl rfl
          · rw [if_neg hh46, if_neg hrestne]
            by_cases hh58 : rest.head? = some 58
            · rw [if_neg (by simp [hh58])]
              obtain ⟨r1, hr1⟩ : ∃ r1, rest = 58 :: r1 := by
                cases rest with
                | nil => exact absurd rfl hrestne
                | cons x xs =>
                  cases hh58
                  exact ⟨xs, rfl⟩
              have h46r1 : 46 ∈ r1 := by
                rw [hr1] at hrest46
                rcases List.mem_cons.mp hrest46 with h | h
                · cases h
                · exact h
              have hdr1 : dotsColon r1 := by
                rw [hr1] at hdrest
                exact hdrest.2
              have hr1ne : r1 ≠ [] := by
                intro hnil
                rw [hnil] at h46r1
                cases h46r1
              by_cases hlen1 : rest.length = 1
              · rw [if_pos hlen1]
                exact Or.inl rfl
              · rw [if_neg hlen1]
                have hdrop : rest.drop 1 = r1 := by rw [hr1]; rfl
                rw [hdrop]
                by_cases hh58b : r1.head? = some 58
                · rw [if_pos hh58b]
                  obtain ⟨r2, hr2⟩ : ∃ r2, r1 = 58 :: r2 := by
                    cases r1 with
                    | nil => exact absurd rfl hr1ne
                    | cons x xs =>
                      cases hh58b
                      exact ⟨xs, rfl⟩
                  have h46r2 : 46 ∈ r2 := by
                    rw [hr2] at h46r1
                    rcases List.mem_cons.mp h46r1 with h | h
                    · cases h
                    · exact h
                  have hdr2 : dotsColon r2 := by
                    rw [hr2] at hdr1
                    exact hdr1.2
                  have hr2ne : r2 ≠ [] := by
                    intro hnil
                    rw [hnil] at h46r2
                    cases h46r2
                  by_cases hell : ell ≠ none
                  · rw [if_pos hell]
                    exact Or.inl rfl
                  · rw [if_neg hell]
                    have hdrop2 : r1.drop 1 = r2 := by rw [hr2]; rfl
                    rw [hdrop2, if_neg hr2ne]
                    exact ih r2 _ _ hdr2 h46r2
                · rw [if_neg hh58b]
                  exact ih r1 _ _ hdr1 h46r1
            · rw [if_pos (by simp [hh58])]
              exact Or.inl rfl

/-- A byte absent from the string leaves `goSplit` with an empty second
component and the whole string first. -/
theorem goSplit_not_mem : ∀ (s : Str) (sep : Nat) (cutc : Bool), sep ∉ s →
    goSplit s sep cutc = (s, []) := by
  intro s sep cutc
  induction s with
  | nil => intro _; rfl
  | cons c r ih =>
    intro hmem
    unfold goSplit
    rw [if_neg (by intro h; exact hmem (h ▸ List.mem_cons_self c r))]
    rw [ih (fun h => hmem (List.mem_cons_of_mem c h))]

/-- On a dotted string with a colon after every dot, a successful
`parseIPv6` can only carry a non-empty zone. -/
theorem parseIPv6_dot (h : Str) (hd : dotsColon h) (hm : 46 ∈ h) :
    ∀ b zone, parseIPv6 h = some (b, zone) → zone ≠ [] := by
  intro b zone hp
  unfold parseIPv6 at hp
  dsimp only at hp
  by_cases hz : hasByte h 37 = true
  · by_cases hzn : (goSplit h 37 true).2 = []
    · rw [if_pos ⟨hz, hzn⟩] at hp
      cases hp
    · rw [if_neg (by simp [hzn])] at hp
      rw [if_pos hz] at hp
      repeat' split at hp
      all_goals (cases hp; try exact hzn)
  · exfalso
    have h37 : 37 ∉ h := by
      intro hmem
      exact hz (by simpa [hasByte] using hmem)
    have hsplit : goSplit h 37 true = (h, []) := goSplit_not_mem h 37 true h37
    rw [if_neg (by simp [hz]), hsplit] at hp
    dsimp only at hp
    by_cases hpp : hasPref [58, 58] h = true ∧ h.drop 2 = []
    · obtain ⟨hppre, hdrop⟩ := hpp
      have hh : h = [58, 58] := by
        cases h with
        | nil => cases hppre
        | cons x xs =>
          cases xs with
          | nil => simp [hasPref] at hppre
          | cons y ys =>
            simp only [List.drop] at hdrop
            simp only [hasPref, Bool.and_eq_true, decide_eq_true_eq] at hppre
            rw [← hppre.1, ← hppre.2.1, hdrop]
      rw [hh] at hm
      simp at hm
    · rw [if_neg hpp] at hp
      by_cases hpre2 : hasPref [58, 58] h = true
      · obtain ⟨s2, hs2⟩ : ∃ s2, h = 58 :: 58 :: s2 := by
          cases h with
          | nil => cases hpre2
          | cons x xs =>
            cases xs with
            | nil => simp [hasPref] at hpre2
            | cons y ys =>
              simp only [hasPref, Bool.and_eq_true, decide_eq_true_eq] at hpre2
              exact ⟨ys, by rw [← hpre2.1, ← hpre2.2.1]⟩
        have h46s2 : 46 ∈ s2 := by
          rw [hs2] at hm
          rcases List.mem_cons.mp hm with h | h
          · cases h
          · rcases List.mem_cons.mp h with h | h
            · cases h
            · exact h
        have hds2 : dotsColon s2 := by
          rw [hs2] at hd
          exact hd.2.2
        rw [if_pos hpre2, if_pos hpre2] at hp
        have hdrop2 : h.drop 2 = s2 := by rw [hs2]; rfl
        rw [hdrop2] at hp
        rcases v6loop_dot (s2.length + 1) s2 [] (some 0) hds2 h46s2 with hv | ⟨p, hv, hne⟩
        · rw [hv] at hp
          cases hp
        · rw [hv] at hp
          obtain ⟨ip1, ell1, srem1⟩ := p
          dsimp only at hp hne
          rw [if_pos hne] at hp
          cases hp
      · rw [if_neg hpre2, if_neg hpre2] at hp
        rcases v6loop_dot (h.length + 1) h [] none hd hm with hv | ⟨p, hv, hne⟩
        · rw [hv] at hp
          cases hp
        · rw [hv] at hp
          obtain ⟨ip1, ell1, srem1⟩ := p
          dsimp only at hp hne
          rw [if_pos hne] at hp
          cases hp

/-- `firstSpecial` only returns one of the three dispatch bytes. -/
theorem firstSpecial_mem : ∀ (s : Str) (c : Nat), firstSpecial s = some c →
    c = 46 ∨ c = 58 ∨ c = 37 := by
  intro s
  induction s with
  | nil => intro c h; cases h
  | cons x r ih =>
    intro c h
    unfold firstSpecial at h
    split at h
    · cases h
      rename_i hx
      rcases hx with h | h | h
      · exact Or.inl h
      · exact Or.inr (Or.inl h)
      · exact Or.inr (Or.inr h)
    · exact ih c h

/-- `ParseIP` rejects any string that contains a dot when every dot is
followed by a later colon. -/
theorem parseIP_dot_none (h : Str) (hd : dotsColon h) (hm : 46 ∈ h) :
    parseIP h = none := by
  unfold parseIP
  cases hfs : firstSpecial h with
  | none => rfl
  | some c =>
    rcases firstSpecial_mem h c hfs with hc | hc | hc <;> subst hc
    · rw [parseIPv4_colon h (dotsColon_colon h hd hm)]
      rfl
    · cases hp : parseIPv6 h with
      | none => rfl
      | some p =>
        obtain ⟨b, zone⟩ := p
        have hz := parseIPv6_dot h hd hm b zone hp
        simp [hz]
    · rfl

/-- A `none` result of `splitLast` means the byte does not occur. -/
theorem splitLast_none : ∀ (s : Str) (sep : Nat), splitLast s sep = none →
    sep ∉ s := by
  intro s sep
  induction s with
  | nil => intro _ hmem; cases hmem
  | cons c r ih =>
    intro h hmem
    unfold splitLast at h
    cases hr : splitLast r sep with
    | some p =>
      rw [hr] at h
      cases h
    | none =>
      rw [hr] at h
      rcases List.mem_cons.mp hmem with hh | hh
      · rw [if_pos hh.symm] at h
        cases h
      · exact ih hr hh

/-- `splitLast` decomposes around the last occurrence. -/
theorem splitLast_spec : ∀ (s : Str) (sep : Nat) (a b : Str),
    splitLast s sep = some (a, b) → s = a ++ sep :: b ∧ sep ∉ b := by
  intro s sep
  induction s with
  | nil => intro a b h; cases h
  | cons c r ih =>
    intro a b h
    unfold splitLast at h
    cases hr : splitLast r sep with
    | some p =>
      rw [hr] at h
      obtain ⟨a1, b1⟩ := p
      simp only [Option.some.injEq, Prod.mk.injEq] at h
      obtain ⟨ha, hb⟩ := h
      subst ha
      subst hb
      obtain ⟨heq, hnot⟩ := ih a1 _ hr
      exact ⟨by rw [List.cons_append, ← heq], hnot⟩
    | none =>
      rw [hr] at h
      by_cases hc : c = sep
      · rw [if_pos hc] at h
        simp only [Option.some.injEq, Prod.mk.injEq] at h
        obtain ⟨ha, hb⟩ := h
        subst ha
        subst hb
        exact ⟨by rw [hc]; rfl, splitLast_none r sep hr⟩
      · rw [if_neg hc] at h
        cases h

/-- An all-digit tail cannot contain a dot, so it is trivially
dot-before-colon. -/
theorem digits_dotsColon : ∀ post : Str,
    (post.all fun b => 48 ≤ b && b ≤ 57) = true → dotsColon post := by
  intro post
  induction post with
  | nil => intro _; trivial
  | cons c r ih =>
    intro h
    rw [List.all_cons, Bool.and_eq_true] at h
    refine ⟨fun hc => ?_, ih h.2⟩
    subst hc
    simp at h

/-- Splitting a valid port off the end makes the whole string
dot-before-colon. -/
theorem dotsColon_append_port : ∀ (pre post : Str),
    (post.all fun b => 48 ≤ b && b ≤ 57) = true →
    dotsColon (pre ++ 58 :: post) := by
  intro pre post hdig
  induction pre with
  | nil =>
    exact ⟨fun h => absurd h (by decide), digits_dotsColon post hdig⟩
  | cons c r ih =>
    refine ⟨fun _ => ?_, ih⟩
    exact List.mem_append.mpr (Or.inr (List.mem_cons_self 58 post))

/-- A URL host whose split-off port is non-empty is dot-before-colon. -/
theorem port_dotsColon (host : Str) (h : (splitHostPort host).2 ≠ []) :
    dotsColon host := by
  cases hmatch : splitLast host 58 with
  | none =>
    exfalso
    apply h
    unfold splitHostPort
    rw [hmatch]
    dsimp only
    split <;> rfl
  | some p =>
    obtain ⟨pre, post⟩ := p
    by_cases hvp : validOptionalPort (58 :: post) = true
    · obtain ⟨heq, _⟩ := splitLast_spec host 58 pre post hmatch
      rw [heq]
      unfold validOptionalPort at hvp
      rw [Bool.and_eq_true] at hvp
      exact dotsColon_append_port pre post hvp.2
    · exfalso
      apply h
      unfold splitHostPort
      rw [hmatch]
      dsimp only
      rw [if_neg hvp]
      split <;> rfl

/-- C9, counterexample: `https://::2/` is rejected with `IsNonLoopback`
although Go reports an explicit port (`Port()` is `2`): the unbracketed
IPv6 host `::2` parses as an IP address even though its last colon group is
simultaneously a valid port, so the "only for IP hosts written without a
port" part of the claim is false. -/
theorem C9_counterexample :
    IsValidClientIdentifier (str "https://::2/") =
      some ProfileError.isNonLoopback ∧
    (goParse (str "https://::2/")).map urlPort = some (str "2") ∧
    str "2" ≠ ([] : Str) := by
  exact ⟨by decide, by decide, by decide⟩

/-- C9 (amended): `IsValidClientIdentifier` accepts URLs whose host is a
non-loopback literal IP address carrying an explicit port whenever the
combined host:port string does not itself parse as an IP address — e.g.
`https://172.28.92.51:8080/` is accepted; the `IsNonLoopback` rejection
can only trigger when the full `Host` string parses as an IP address, which
never happens for a dotted (IPv4) host with an explicit port, though it can
for an unbracketed IPv6 literal such as `::2` whose `Port()` is nonetheless
non-empty. -/
theorem C9_amended :
    IsValidClientIdentifier (str "https://172.28.92.51:8080/") = none ∧
    (∀ (s : Str) (u : GoURL), goParse s = some u →
      IsValidClientIdentifier s = some ProfileError.isNonLoopback →
      ∃ ip, parseIP u.host = some ip ∧ isLoopback ip = false) ∧
    (∀ (s : Str) (u : GoURL), goParse s = some u →
      hasByte u.host 46 = true → urlPort u ≠ [] →
      IsValidClientIdentifier s ≠ some ProfileError.isNonLoopback) := by
  have hii : ∀ (s : Str) (u : GoURL), goParse s = some u →
      IsValidClientIdentifier s = some ProfileError.isNonLoopback →
      ∃ ip, parseIP u.host = some ip ∧ isLoopback ip = false := by
    intro s u hu hres
    unfold IsValidClientIdentifier at hres
    rw [hu] at hres
    dsimp only at hres
    split_ifs at hres
    all_goals try (cases hres)
    cases hip : parseIP u.host with
    | none =>
      rw [hip] at hres
      dsimp only at hres
      cases hres
    | some ip =>
      rw [hip] at hres
      dsimp only at hres
      by_cases hl : isLoopback ip = true
      · rw [if_neg (by simp [hl])] at hres
        cases hres
      · exact ⟨ip, rfl, by simpa using hl⟩
  refine ⟨by decide, hii, ?_⟩
  intro s u hu hdot hport hres
  obtain ⟨ip, hip, _⟩ := hii s u hu hres
  have hdc : dotsColon u.host := port_dotsColon u.host hport
  have hmem : 46 ∈ u.host := by simpa [hasByte] using hdot
  rw [parseIP_dot_none u.host hdc hmem] at hip
  cases hip

/-- C9, witness: the dotted-host-with-port part instantiated at
`https://1.2.3.4:80/x` (accepted, hence in particular not rejected with
`IsNonLoopback`). -/
theorem C9_witness :
    IsValidClientIdentifier (str "https://1.2.3.4:80/x") ≠
      some ProfileError.isNonLoopback :=
  C9_amended.2.2 (str "https://1.2.3.4:80/x")
    ⟨str "https", [], none, str "1.2.3.4:80", str "/x", [],
      false, false, [], [], []⟩
    (by decide) (by decide) (by decide)

/-! ### Lemmas for C6: list utilities -/

theorem goSplit_fst_not_mem : ∀ (s : Str) (sep : Nat) (cutc : Bool),
    sep ∉ (goSplit s sep cutc).1 := by
  intro s sep cutc
  induction s with
  | nil => intro h; cases h
  | cons c r ih =>
    unfold goSplit
    by_cases hc : c = sep
    · rw [if_pos hc]
      intro h
      cases h
    · rw [if_neg hc]
      intro h
      rcases List.mem_cons.mp h with hh | hh
      · exact hc hh.symm
      · exact ih hh

theorem goSplit_append_cut : ∀ (a : Str) (sep : Nat) (b : Str), sep ∉ a →
    goSplit (a ++ sep :: b) sep true = (a, b) := by
  intro a sep b
  induction a with
  | nil => intro _; simp [goSplit]
  | cons c r ih =>
    intro h
    have hc : ¬c = sep := fun hh => h (hh ▸ List.mem_cons_self c r)
    rw [List.cons_append]
    unfold goSplit
    rw [if_neg hc, ih (fun hh => h (List.mem_cons_of_mem c hh))]

theorem goSplit_append_nocut : ∀ (a : Str) (sep : Nat) (b : Str), sep ∉ a →
    goSplit (a ++ sep :: b) sep false = (a, sep :: b) := by
  intro a sep b
  induction a with
  | nil => intro _; simp [goSplit]
  | cons c r ih =>
    intro h
    have hc : ¬c = sep := fun hh => h (hh ▸ List.mem_cons_self c r)
    rw [List.cons_append]
    unfold goSplit
    rw [if_neg hc, ih (fun hh => h (List.mem_cons_of_mem c hh))]

/-- Decomposition produced by `goSplit` with `cutc = true`. -/
theorem goSplit_spec_cut : ∀ (s : Str) (sep : Nat),
    s = (goSplit s sep true).1 ++ sep :: (goSplit s sep true).2 ∨
      ((goSplit s sep true).1 = s ∧ (goSplit s sep true).2 = [] ∧ sep ∉ s) := by
  intro s sep
  induction s with
  | nil => exact Or.inr ⟨rfl, rfl, fun h => by cases h⟩
  | cons c r ih =>
    unfold goSplit
    by_cases hc : c = sep
    · rw [if_pos hc]
      exact Or.inl (by simp [hc])
    · rw [if_neg hc]
      rcases ih with h | ⟨h1, h2, h3⟩
      · exact Or.inl (by dsimp only; rw [List.cons_append, ← h])
      · refine Or.inr ⟨by dsimp only; rw [h1], by dsimp only; rw [h2], ?_⟩
        intro hmem
        rcases List.mem_cons.mp hmem with hh | hh
        · exact hc hh.symm
        · exact h3 hh

theorem goSplit_snd_head : ∀ (s : Str) (sep : Nat),
    (goSplit s sep false).2 = [] ∨ (goSplit s sep false).2.head? = some sep := by
  intro s sep
  induction s with
  | nil => exact Or.inl rfl
  | cons c r ih =>
    unfold goSplit
    by_cases hc : c = sep
    · rw [if_pos hc]
      exact Or.inr (by simp [hc])
    · rw [if_neg hc]
      exact ih

theorem splitLast_eq_none : ∀ (s : Str) (sep : Nat), sep ∉ s →
    splitLast s sep = none := by
  intro s sep
  induction s with
  | nil => intro _; rfl
  | cons c r ih =>
    intro h
    unfold splitLast
    rw [ih (fun hh => h (List.mem_cons_of_mem c hh))]
    rw [if_neg (fun hh : c = sep => h (hh ▸ List.mem_cons_self c r))]

theorem splitLast_append : ∀ (a : Str) (sep : Nat) (b : Str), sep ∉ b →
    splitLast (a ++ sep :: b) sep = some (a, b) := by
  intro a sep b hb
  induction a with
  | nil =>
    simp only [List.nil_append]
    unfold splitLast
    rw [splitLast_eq_none b sep hb, if_pos rfl]
  | cons c r ih =>
    rw [List.cons_append]
    unfold splitLast
    rw [ih]

theorem splitSub_some : ∀ (s pat a b : Str), splitSub pat s = some (a, b) →
    s = a ++ b ∧ pat.isPrefixOf b = true := by
  intro s pat
  induction s with
  | nil =>
    intro a b h
    unfold splitSub at h
    split at h
    · cases h
      exact ⟨rfl, by assumption⟩
    · cases h
  | cons c r ih =>
    intro a b h
    unfold splitSub at h
    split at h
    · cases h
      exact ⟨rfl, by assumption⟩
    · rename_i hnp
      cases hsr : splitSub pat r with
      | none => rw [hsr] at h; cases h
      | some p =>
        rw [hsr] at h
        obtain ⟨a1, b1⟩ := p
        cases h
        exact ⟨by rw [List.cons_append, ← (ih a1 b hsr).1], (ih a1 b hsr).2⟩

theorem isPrefixOf3 : ∀ (x y z : Nat) (b : Str), [x, y, z].isPrefixOf b = true →
    ∃ b2, b = x :: y :: z :: b2 := by
  intro x y z b h
  cases b with
  | nil => cases h
  | cons c1 r1 =>
    cases r1 with
    | nil => simp [List.isPrefixOf] at h
    | cons c2 r2 =>
      cases r2 with
      | nil => simp [List.isPrefixOf] at h
      | cons c3 r3 =>
        simp only [List.isPrefixOf, Bool.and_eq_true, beq_iff_eq] at h
        exact ⟨r3, by rw [h.1, h.2.1, h.2.2.1]⟩

theorem hasPref_append : ∀ p x : Str, hasPref p (p ++ x) = true := by
  intro p x
  induction p with
  | nil => rfl
  | cons c r ih => simpa [hasPref] using ih

theorem hasPref_iff : ∀ p s : Str, hasPref p s = true ↔ ∃ x, s = p ++ x := by
  intro p
  induction p with
  | nil => exact fun s => ⟨fun _ => ⟨s, rfl⟩, fun _ => rfl⟩
  | cons c r ih =>
    intro s
    cases s with
    | nil => simp [hasPref]
    | cons d t =>
      simp only [hasPref, Bool.and_eq_true, decide_eq_true_eq, ih t]
      constructor
      · rintro ⟨h1, x, h2⟩
        exact ⟨x, by rw [h1, h2, List.cons_append]⟩
      · rintro ⟨x, h⟩
        rw [List.cons_append] at h
        cases h
        exact ⟨rfl, x, rfl⟩

/-! ### Lemmas for C6: `Bytes` plumbing -/

theorem bytes_append {a b : Str} : Bytes (a ++ b) ↔ Bytes a ∧ Bytes b := by
  unfold Bytes
  simp only [List.mem_append]
  exact ⟨fun h => ⟨fun x hx => h x (Or.inl hx), fun x hx => h x (Or.inr hx)⟩,
    fun h x hx => hx.elim (h.1 x) (h.2 x)⟩

theorem bytes_cons {c : Nat} {r : Str} : Bytes (c :: r) ↔ c < 256 ∧ Bytes r := by
  unfold Bytes
  simp only [List.mem_cons]
  exact ⟨fun h => ⟨h c (Or.inl rfl), fun x hx => h x (Or.inr hx)⟩,
    fun h x hx => hx.elim (fun e => e ▸ h.1) (h.2 x)⟩

theorem bytes_of_subset {s t : Str} (h : Bytes s) (hsub : ∀ x ∈ t, x ∈ s) :
    Bytes t := fun x hx => h x (hsub x hx)

theorem bytes_nil : Bytes [] := fun x hx => by cases hx

/-! ### Lemmas for C6: hex digits -/

theorem hexUp_range {n : Nat} (h : n < 16) :
    (48 ≤ hexUp n ∧ hexUp n ≤ 57) ∨ (65 ≤ hexUp n ∧ hexUp n ≤ 70) := by
  unfold hexUp
  split_ifs <;> omega

theorem ishex_hexUp {n : Nat} (h : n < 16) : ishex (hexUp n) = true := by
  unfold ishex
  rcases hexUp_range h with ⟨h1, h2⟩ | ⟨h1, h2⟩ <;>
    simp only [Bool.or_eq_true, Bool.and_eq_true, decide_eq_true_eq] <;> omega

theorem unhex_hexUp {n : Nat} (h : n < 16) : unhex (hexUp n) = n := by
  unfold unhex hexUp
  split_ifs <;> omega

theorem hexUp_ne_37 {n : Nat} (h : n < 16) : hexUp n ≠ 37 := by
  rcases hexUp_range h with ⟨h1, h2⟩ | ⟨h1, h2⟩ <;> omega

theorem shouldEscape_37 (m : Enc) : shouldEscape 37 m = true := by
  cases m <;> decide

theorem shouldEscape_host_zone (c : Nat) :
    shouldEscape c Enc.host = shouldEscape c Enc.zone := rfl

/-! ### Lemmas for C6: escape structure -/

theorem escape_cons (c : Nat) (r : Str) (m : Enc) :
    escape (c :: r) m =
      (if shouldEscape c m then
        if c = 32 ∧ m = Enc.queryComponent then [43]
        else [37, hexUp (c / 16), hexUp (c % 16)]
      else [c]) ++ escape r m := rfl

theorem escape_append : ∀ (a b : Str) (m : Enc),
    escape (a ++ b) m = escape a m ++ escape b m := by
  intro a b m
  induction a with
  | nil => rfl
  | cons c r ih =>
    rw [List.cons_append, escape_cons, escape_cons, ih, List.append_assoc]

theorem escape_ne_nil {s : Str} {m : Enc} (h : s ≠ []) : escape s m ≠ [] := by
  cases s with
  | nil => exact absurd rfl h
  | cons c r =>
    unfold escape
    split_ifs <;> simp

theorem escape_head_raw {c : Nat} {r : Str} {m : Enc}
    (h : shouldEscape c m = false) : escape (c :: r) m = c :: escape r m := by
  rw [escape_cons, if_neg (by simp [h])]
  rfl

theorem mem_escape {s : Str} {m : Enc} (hB : Bytes s)
    (hq : m ≠ Enc.queryComponent) :
    ∀ x ∈ escape s m, x = 37 ∨ ishex x = true ∨
      (x ∈ s ∧ shouldEscape x m = false) := by
  induction s with
  | nil => intro x hx; cases hx
  | cons c r ih =>
    intro x hx
    obtain ⟨hc, hBr⟩ := bytes_cons.mp hB
    unfold escape at hx
    rcases List.mem_append.mp hx with hx1 | hx1
    · by_cases hsc : shouldEscape c m = true
      · rw [if_pos hsc, if_neg (fun hh => hq hh.2)] at hx1
        rcases List.mem_cons.mp hx1 with h | h
        · exact Or.inl h
        · rcases List.mem_cons.mp h with h | h
          · exact Or.inr (Or.inl (h ▸ ishex_hexUp (by omega)))
          · rcases List.mem_cons.mp h with h | h
            · exact Or.inr (Or.inl (h ▸ ishex_hexUp (by omega)))
            · cases h
      · rw [if_neg hsc] at hx1
        rcases List.mem_cons.mp hx1 with h | h
        · exact Or.inr (Or.inr ⟨h ▸ List.mem_cons_self c r,
            h ▸ Bool.not_eq_true _ ▸ by simpa using hsc⟩)
        · cases h
    · rcases ih hBr x hx1 with h | h | ⟨h1, h2⟩
      · exact Or.inl h
      · exact Or.inr (Or.inl h)
      · exact Or.inr (Or.inr ⟨List.mem_cons_of_mem c h1, h2⟩)

/-- A byte that is not `%`, not a hex digit, and is escaped in mode `m`
never appears in escaped output. -/
theorem escape_not_mem {s : Str} {m : Enc} {x : Nat} (hB : Bytes s)
    (hq : m ≠ Enc.queryComponent) (h37 : x ≠ 37) (hhex : ishex x = false)
    (hesc : shouldEscape x m = true) : x ∉ escape s m := by
  intro hx
  rcases mem_escape hB hq x hx with h | h | ⟨_, h⟩
  · exact h37 h
  · rw [hhex] at h; cases h
  · rw [hesc] at h; cases h

/-- Splitting escaped output at a raw-allowed, non-hex, non-`%` byte lifts
to a split of the source. -/
theorem escape_split_raw {m : Enc} {d : Nat} (hq : m ≠ Enc.queryComponent)
    (hd37 : d ≠ 37) (hdhex : ishex d = false) :
    ∀ {s a b : Str}, Bytes s → escape s m = a ++ d :: b →
    ∃ s1 s2, s = s1 ++ d :: s2 ∧ escape s1 m = a ∧ escape s2 m = b := by
  intro s
  induction s with
  | nil =>
    intro a b _ h
    rw [show escape [] m = [] from rfl] at h
    cases a <;> cases h
  | cons c r ih =>
    intro a b hB h
    obtain ⟨hc, hBr⟩ := bytes_cons.mp hB
    by_cases hsc : shouldEscape c m = true
    · rw [show escape (c :: r) m =
          (if shouldEscape c m then
            if c = 32 ∧ m = Enc.queryComponent then [43]
            else [37, hexUp (c / 16), hexUp (c % 16)]
          else [c]) ++ escape r m from rfl,
        if_pos hsc, if_neg (fun hh => hq hh.2)] at h
      simp only [List.cons_append, List.nil_append] at h
      cases a with
      | nil =>
        injection h with h1 _
        exact absurd h1.symm hd37
      | cons x a' =>
        injection h with h1 h2
        cases a' with
        | nil =>
          injection h2 with h3 _
          rw [← h3] at hdhex
          rw [ishex_hexUp (by omega : c / 16 < 16)] at hdhex
          cases hdhex
        | cons y a'' =>
          injection h2 with h3 h4
          cases a'' with
          | nil =>
            injection h4 with h5 _
            rw [← h5] at hdhex
            rw [ishex_hexUp (by omega : c % 16 < 16)] at hdhex
            cases hdhex
          | cons z a3 =>
            injection h4 with h5 h6
            obtain ⟨s1, s2, hs, ha, hb⟩ := ih hBr h6
            refine ⟨c :: s1, s2, by rw [hs, List.cons_append], ?_, hb⟩
            rw [show escape (c :: s1) m =
                (if shouldEscape c m then
                  if c = 32 ∧ m = Enc.queryComponent then [43]
                  else [37, hexUp (c / 16), hexUp (c % 16)]
                else [c]) ++ escape s1 m from rfl,
              if_pos hsc, if_neg (fun hh => hq hh.2), ha]
            simp only [List.cons_append, List.nil_append]
            rw [h1, h3, h5]
    · rw [escape_head_raw (by simpa using hsc)] at h
      cases a with
      | nil =>
        injection h with h1 h2
        exact ⟨[], r, by rw [h1]; rfl, rfl, h2⟩
      | cons x a' =>
        injection h with h1 h2
        obtain ⟨s1, s2, hs, ha, hb⟩ := ih hBr h2
        refine ⟨c :: s1, s2, by rw [hs, List.cons_append], ?_, hb⟩
        rw [escape_head_raw (by simpa using hsc), ha, h1]

/-- Splitting escaped output at a literal `%25` lifts to a split of the
source at a `%`. -/
theorem escape_split_25 {m : Enc} (hq : m ≠ Enc.queryComponent) :
    ∀ {s a b : Str}, Bytes s → escape s m = a ++ 37 :: 50 :: 53 :: b →
    ∃ s1 s2, s = s1 ++ 37 :: s2 ∧ escape s1 m = a ∧ escape s2 m = b := by
  intro s
  induction s with
  | nil =>
    intro a b _ h
    rw [show escape [] m = [] from rfl] at h
    cases a <;> cases h
  | cons c r ih =>
    intro a b hB h
    obtain ⟨hc, hBr⟩ := bytes_cons.mp hB
    by_cases hsc : shouldEscape c m = true
    · rw [show escape (c :: r) m =
          (if shouldEscape c m then
            if c = 32 ∧ m = Enc.queryComponent then [43]
            else [37, hexUp (c / 16), hexUp (c % 16)]
          else [c]) ++ escape r m from rfl,
        if_pos hsc, if_neg (fun hh => hq hh.2)] at h
      simp only [List.cons_append, List.nil_append] at h
      cases a with
      | nil =>
        injection h with h1 h2
        injection h2 with h3 h4
        injection h4 with h5 h6
        have hc16 : c / 16 = 2 := by
          have := unhex_hexUp (by omega : c / 16 < 16)
          rw [h3] at this
          simpa [unhex] using this.symm
        have hcm16 : c % 16 = 5 := by
          have := unhex_hexUp (by omega : c % 16 < 16)
          rw [h5] at this
          simpa [unhex] using this.symm
        have hc37 : c = 37 := by omega
        exact ⟨[], r, by rw [hc37]; rfl, rfl, h6⟩
      | cons x a' =>
        injection h with h1 h2
        cases a' with
        | nil =>
          injection h2 with h3 _
          exact absurd h3 (hexUp_ne_37 (by omega))
        | cons y a'' =>
          injection h2 with h3 h4
          cases a'' with
          | nil =>
            injection h4 with h5 _
            exact absurd h5 (hexUp_ne_37 (by omega))
          | cons z a3 =>
            injection h4 with h5 h6
            obtain ⟨s1, s2, hs, ha, hb⟩ := ih hBr h6
            refine ⟨c :: s1, s2, by rw [hs, List.cons_append], ?_, hb⟩
            rw [show escape (c :: s1) m =
                (if shouldEscape c m then
                  if c = 32 ∧ m = Enc.queryComponent then [43]
                  else [37, hexUp (c / 16), hexUp (c % 16)]
                else [c]) ++ escape s1 m from rfl,
              if_pos hsc, if_neg (fun hh => hq hh.2), ha]
            simp only [List.cons_append, List.nil_append]
            rw [h1, h3, h5]
    · rw [escape_head_raw (by simpa using hsc)] at h
      cases a with
      | nil =>
        injection h with h1 _
        rw [h1, shouldEscape_37] at hsc
        cases hsc rfl
      | cons x a' =>
        injection h with h1 h2
        obtain ⟨s1, s2, hs, ha, hb⟩ := ih hBr h2
        refine ⟨c :: s1, s2, by rw [hs, List.cons_append], ?_, hb⟩
        rw [escape_head_raw (by simpa using hsc), ha, h1]

/-! ### Lemmas for C6: unescape structure -/

theorem unescape_cons (c : Nat) (r : Str) (m : Enc) :
    unescape (c :: r) m =
      if c = 37 then
        match r with
        | a :: b :: r2 =>
          if ishex a && ishex b then
            if m = Enc.host ∧ unhex a < 8 ∧ ¬(a = 50 ∧ b = 53) then none
            else if m = Enc.zone ∧ ¬(a = 50 ∧ b = 53) ∧
                ¬(unhex a * 16 + unhex b = 32) ∧
                shouldEscape (unhex a * 16 + unhex b) Enc.host then none
            else (unescape r2 m).map ((unhex a * 16 + unhex b) :: ·)
          else none
        | _ => none
      else if c = 43 then
        (unescape r m).map ((if m = Enc.queryComponent then 32 else 43) :: ·)
      else if (m = Enc.host ∨ m = Enc.zone) ∧ c < 128 ∧ shouldEscape c m then none
      else (unescape r m).map (c :: ·) := by
  cases r with
  | nil => rfl
  | cons a r1 =>
    cases r1 with
    | nil => rfl
    | cons b r2 => rfl

theorem map_cons_some {o : Option Str} {c : Nat} {y : Str}
    (h : o.map (c :: ·) = some y) : ∃ t, o = some t ∧ y = c :: t := by
  cases o with
  | none => exact Option.noConfusion h
  | some t => exact ⟨t, rfl, by injection h with h1; exact h1.symm⟩

/-- Unescaping a nonempty string, when it succeeds, yields a nonempty string
whose head is determined by the input head. -/
theorem unescape_cons_shape {c : Nat} {r : Str} {m : Enc} {t : Str}
    (h : unescape (c :: r) m = some t) : ∃ d t2, t = d :: t2 := by
  rw [unescape_cons] at h
  by_cases h37 : c = 37
  · rw [if_pos h37] at h
    match r with
    | [] => exact Option.noConfusion h
    | [a] => exact Option.noConfusion h
    | a :: b :: r2 =>
      dsimp only at h
      split at h
      · split at h
        · exact Option.noConfusion h
        · split at h
          · exact Option.noConfusion h
          · obtain ⟨t2, _, ht⟩ := map_cons_some h
            exact ⟨_, t2, ht⟩
      · exact Option.noConfusion h
  · rw [if_neg h37] at h
    by_cases h43 : c = 43
    · rw [if_pos h43] at h
      obtain ⟨t2, _, ht⟩ := map_cons_some h
      exact ⟨_, t2, ht⟩
    · rw [if_neg h43] at h
      split at h
      · exact Option.noConfusion h
      · obtain ⟨t2, _, ht⟩ := map_cons_some h
        exact ⟨_, t2, ht⟩

theorem unescape_nil {s : Str} {m : Enc} (h : unescape s m = some []) :
    s = [] := by
  cases s with
  | nil => rfl
  | cons c r =>
    obtain ⟨d, t2, ht⟩ := unescape_cons_shape h
    cases ht

/-- Unescaping a string that starts with `/` yields a string that starts
with `/` (47 is raw in every mode). -/
theorem unescape_head47 {z : Str} {m : Enc} {t : Str}
    (h : unescape (47 :: z) m = some t) : t.head? = some 47 := by
  rw [unescape_cons, if_neg (by omega : (47 : Nat) ≠ 37),
    if_neg (by omega : (47 : Nat) ≠ 43)] at h
  split at h
  · exact Option.noConfusion h
  · obtain ⟨t2, _, ht⟩ := map_cons_some h
    rw [ht]
    rfl

theorem unhex_lt (c : Nat) : unhex c < 16 := by
  unfold unhex
  split_ifs <;> omega

theorem unescape_bytes_aux {m : Enc} :
    ∀ (n : Nat) (s t : Str), s.length ≤ n → Bytes s → unescape s m = some t →
      Bytes t := by
  intro n
  induction n with
  | zero =>
    intro s t hl _ h
    rw [List.length_eq_zero.mp (Nat.le_zero.mp hl)] at h
    cases h
    exact bytes_nil
  | succ n ih =>
    intro s t hl hB h
    cases s with
    | nil => cases h; exact bytes_nil
    | cons c r =>
      obtain ⟨hc, hBr⟩ := bytes_cons.mp hB
      rw [List.length_cons] at hl
      rw [unescape_cons] at h
      by_cases h37 : c = 37
      · rw [if_pos h37] at h
        match r, hBr, hl with
        | [], _, _ => exact Option.noConfusion h
        | [a], _, _ => exact Option.noConfusion h
        | a :: b :: r2, hBr, hl =>
          dsimp only at h
          obtain ⟨_, hB2⟩ := bytes_cons.mp hBr
          obtain ⟨_, hBr2⟩ := bytes_cons.mp hB2
          split at h
          · split at h
            · exact Option.noConfusion h
            · split at h
              · exact Option.noConfusion h
              · obtain ⟨t2, ht2, rfl⟩ := map_cons_some h
                refine bytes_cons.mpr ⟨by have := unhex_lt a; have := unhex_lt b; omega, ?_⟩
                exact ih r2 t2 (by simp at hl ⊢; omega) hBr2 ht2
          · exact Option.noConfusion h
      · rw [if_neg h37] at h
        by_cases h43 : c = 43
        · rw [if_pos h43] at h
          obtain ⟨t2, ht2, rfl⟩ := map_cons_some h
          exact bytes_cons.mpr ⟨by split <;> omega, ih r t2 (by omega) hBr ht2⟩
        · rw [if_neg h43] at h
          split at h
          · exact Option.noConfusion h
          · obtain ⟨t2, ht2, rfl⟩ := map_cons_some h
            exact bytes_cons.mpr ⟨hc, ih r t2 (by omega) hBr ht2⟩

theorem unescape_bytes {m : Enc} {s t : Str} (hB : Bytes s)
    (h : unescape s m = some t) : Bytes t :=
  unescape_bytes_aux s.length s t (Nat.le_refl _) hB h

/-- Central round-trip lemma: if unescaping (in any non-query mode) an
escaped (in any non-query mode) byte string succeeds, it returns the
original string. -/
theorem unescape_escape {m1 m2 : Enc} (hq1 : m1 ≠ Enc.queryComponent)
    (hq2 : m2 ≠ Enc.queryComponent) :
    ∀ {x y : Str}, Bytes x → unescape (escape x m1) m2 = some y → y = x := by
  intro x
  induction x with
  | nil => intro y _ h; cases h; rfl
  | cons c r ih =>
    intro y hB h
    obtain ⟨hc, hBr⟩ := bytes_cons.mp hB
    rw [escape_cons] at h
    by_cases hsc : shouldEscape c m1 = true
    · rw [if_pos hsc, if_neg (fun hh => hq1 hh.2)] at h
      simp only [List.cons_append, List.nil_append] at h
      rw [unescape_cons, if_pos rfl] at h
      dsimp only at h
      rw [if_pos (by rw [ishex_hexUp (by omega : c / 16 < 16),
        ishex_hexUp (by omega : c % 16 < 16)]; rfl)] at h
      split at h
      · exact Option.noConfusion h
      · split at h
        · exact Option.noConfusion h
        · rw [unhex_hexUp (by omega : c / 16 < 16),
            unhex_hexUp (by omega : c % 16 < 16),
            (by omega : c / 16 * 16 + c % 16 = c)] at h
          obtain ⟨t, ht, rfl⟩ := map_cons_some h
          rw [ih hBr ht]
    · rw [if_neg hsc] at h
      simp only [List.cons_append, List.nil_append] at h
      rw [unescape_cons] at h
      have h37 : c ≠ 37 := fun hh => hsc (hh ▸ shouldEscape_37 m1)
      rw [if_neg h37] at h
      by_cases h43 : c = 43
      · rw [if_pos h43] at h
        rw [if_neg hq2] at h
        obtain ⟨t, ht, rfl⟩ := map_cons_some h
        rw [ih hBr ht, h43]
      · rw [if_neg h43] at h
        split at h
        · exact Option.noConfusion h
        · obtain ⟨t, ht, rfl⟩ := map_cons_some h
          rw [ih hBr ht]

/-- A byte that is raw-allowed in mode `m` and occurs in `s` occurs in the
escaped form of `s`. -/
theorem mem_escape_raw {m : Enc} {c : Nat} (hraw : shouldEscape c m = false) :
    ∀ {s : Str}, c ∈ s → c ∈ escape s m := by
  intro s
  induction s with
  | nil => intro h; cases h
  | cons d r ih =>
    intro h
    rcases List.mem_cons.mp h with h | h
    · rw [escape_head_raw (h ▸ hraw), h]
      exact List.mem_cons_self _ _
    · rw [escape_cons]
      exact List.mem_append.mpr (Or.inr (ih h))

/-! ### Lemmas for C6: validEncoded -/

theorem validEncoded_cons (c : Nat) (r : Str) (m : Enc) :
    validEncoded (c :: r) m =
      ((if c = 33 || c = 36 || c = 38 || c = 39 || c = 40 || c = 41 || c = 42 ||
          c = 43 || c = 44 || c = 59 || c = 61 || c = 58 || c = 64 then true
       else if c = 91 || c = 93 then true
       else if c = 37 then true
       else !shouldEscape c m) && validEncoded r m) := rfl

theorem validEncoded_append {m : Enc} : ∀ (a b : Str),
    validEncoded (a ++ b) m = (validEncoded a m && validEncoded b m) := by
  intro a b
  induction a with
  | nil => rfl
  | cons c r ih =>
    rw [List.cons_append, validEncoded_cons, validEncoded_cons, ih,
      Bool.and_assoc]

theorem shouldEscape_alnum {c : Nat} (h : isAlphaNum c = true) (m : Enc) :
    shouldEscape c m = false := by
  unfold shouldEscape
  rw [h]
  rfl

theorem ishex_alnum {c : Nat} (h : ishex c = true) : isAlphaNum c = true := by
  unfold ishex at h
  unfold isAlphaNum
  simp only [Bool.or_eq_true, Bool.and_eq_true, decide_eq_true_eq] at h ⊢
  omega

theorem validEncoded_single_raw {c : Nat} {m : Enc}
    (h : shouldEscape c m = false) : validEncoded [c] m = true := by
  rw [validEncoded_cons]
  simp only [h]
  split_ifs <;> rfl

theorem validEncoded_escape {m : Enc} :
    ∀ {s : Str}, Bytes s → validEncoded (escape s m) m = true := by
  intro s
  induction s with
  | nil => intro _; rfl
  | cons c r ih =>
    intro hB
    obtain ⟨hc, hBr⟩ := bytes_cons.mp hB
    rw [escape_cons, validEncoded_append, ih hBr, Bool.and_true]
    by_cases hsc : shouldEscape c m = true
    · rw [if_pos hsc]
      by_cases hq : c = 32 ∧ m = Enc.queryComponent
      · rw [if_pos hq]
        rfl
      · rw [if_neg hq]
        have v1 := validEncoded_single_raw (m := m)
          (shouldEscape_alnum (ishex_alnum (ishex_hexUp (show c / 16 < 16 by omega))) m)
        have v2 := validEncoded_single_raw (m := m)
          (shouldEscape_alnum (ishex_alnum (ishex_hexUp (show c % 16 < 16 by omega))) m)
        rw [show ([37, hexUp (c / 16), hexUp (c % 16)] : Str) =
          [37] ++ [hexUp (c / 16)] ++ [hexUp (c % 16)] from rfl,
          validEncoded_append, validEncoded_append, v1, v2]
        rfl
    · rw [if_neg hsc]
      exact validEncoded_single_raw (by simpa using hsc)

theorem validEncoded_mem {m : Enc} :
    ∀ {s : Str}, validEncoded s m = true → ∀ c ∈ s, validEncoded [c] m = true := by
  intro s
  induction s with
  | nil => intro _ c hc; cases hc
  | cons d r ih =>
    intro h c hc
    rw [validEncoded_cons, Bool.and_eq_true] at h
    rcases List.mem_cons.mp hc with hc | hc
    · rw [hc, validEncoded_cons, h.1]
      rfl
    · exact ih h.2 c hc

theorem valid_no35 {s : Str} {m : Enc} (h : validEncoded s m = true) :
    35 ∉ s := by
  intro hmem
  have h35 := validEncoded_mem h 35 hmem
  have : validEncoded [35] m = false := by cases m <;> decide
  rw [this] at h35
  cases h35

theorem valid_path_no63 {s : Str} (h : validEncoded s Enc.path = true) :
    63 ∉ s := by
  intro hmem
  have h63 := validEncoded_mem h 63 hmem
  have : validEncoded [63] Enc.path = false := by decide
  rw [this] at h63
  cases h63

/-! ### Lemmas for C6: EscapedPath and EscapedFragment fixed points -/

theorem head47_shape {s : Str} (h : s.head? = some 47) : ∃ t, s = 47 :: t := by
  cases s with
  | nil => cases h
  | cons c r =>
    injection h with h1
    exact ⟨r, by rw [h1]⟩

theorem escapedPath_head47 {u : GoURL} (hp : u.path.head? = some 47)
    (hr : u.rawPath = [] ∨ u.rawPath.head? = some 47) :
    (escapedPath u).head? = some 47 := by
  unfold escapedPath
  split_ifs with h1 h2
  · rcases hr with hr | hr
    · exact absurd hr h1.1
    · exact hr
  · rw [h2] at hp
    cases hp
  · obtain ⟨t, ht⟩ := head47_shape hp
    rw [ht, escape_head_raw (by decide)]
    rfl

theorem escapedPath_valid {u : GoURL} (hB : Bytes u.path)
    (hp : u.path.head? = some 47) :
    validEncoded (escapedPath u) Enc.path = true := by
  unfold escapedPath
  split_ifs with h1 h2
  · exact h1.2.1
  · rw [h2] at hp
    cases hp
  · exact validEncoded_escape hB

theorem escapedPath_of_parse {P : Str} (u : GoURL)
    (hrw : u.rawPath = (if P = escape u.path Enc.path then [] else P))
    (hun : unescape P Enc.path = some u.path)
    (hval : validEncoded P Enc.path = true)
    (hP : P.head? = some 47) : escapedPath u = P := by
  obtain ⟨z, hz⟩ := head47_shape hP
  have hpath47 : u.path.head? = some 47 := unescape_head47 (hz ▸ hun)
  have hpathne : u.path ≠ [42] := by
    intro hh
    rw [hh] at hpath47
    cases hpath47
  by_cases heq : P = escape u.path Enc.path
  · rw [if_pos heq] at hrw
    unfold escapedPath
    rw [if_neg (fun hh => hh.1 hrw), if_neg hpathne]
    exact heq.symm
  · rw [if_neg heq] at hrw
    unfold escapedPath
    rw [if_pos ⟨by rw [hrw, hz]; exact fun hh => List.noConfusion hh,
      by rw [hrw]; exact hval, by rw [hrw]; exact hun⟩]
    exact hrw

theorem escapedFragment_valid {u : GoURL} (hB : Bytes u.fragment) :
    validEncoded (escapedFragment u) Enc.fragment = true := by
  unfold escapedFragment
  split_ifs with h1
  · exact h1.2.1
  · exact validEncoded_escape hB

theorem escapedFragment_ne_nil {u : GoURL} (h : u.fragment ≠ []) :
    escapedFragment u ≠ [] := by
  unfold escapedFragment
  split_ifs with h1
  · exact h1.1
  · exact escape_ne_nil h

theorem escapedFragment_of_parse {F : Str} (u : GoURL) (hF : F ≠ [])
    (hrw : u.rawFragment = (if F = escape u.fragment Enc.fragment then [] else F))
    (hun : unescape F Enc.fragment = some u.fragment)
    (hval : validEncoded F Enc.fragment = true) : escapedFragment u = F := by
  by_cases heq : F = escape u.fragment Enc.fragment
  · rw [if_pos heq] at hrw
    unfold escapedFragment
    rw [if_neg (fun hh => hh.1 hrw)]
    exact heq.symm
  · rw [if_neg heq] at hrw
    unfold escapedFragment
    rw [if_pos ⟨by rw [hrw]; exact hF, by rw [hrw]; exact hval,
      by rw [hrw]; exact hun⟩]
    exact hrw

/-! ### Lemmas for C6: parseHost and parseAuthority round trips -/

theorem hasByte_iff {s : Str} {b : Nat} : hasByte s b = true ↔ b ∈ s := by
  simp [hasByte]

/-- If re-parsing the escaped form of a host succeeds, it returns the
original host string. -/
theorem parseHost_escape {h hv : Str} (hB : Bytes h)
    (hp : parseHost (escape h Enc.host) = some hv) : hv = h := by
  unfold parseHost at hp
  by_cases hbr : hasPref [91] (escape h Enc.host) = true
  · rw [if_pos hbr] at hp
    cases hsl : splitLast (escape h Enc.host) 93 with
    | none =>
      rw [hsl] at hp
      exact Option.noConfusion hp
    | some pr =>
      obtain ⟨preE, postE⟩ := pr
      rw [hsl] at hp
      dsimp only at hp
      obtain ⟨hdec, hnmem⟩ := splitLast_spec _ _ _ _ hsl
      obtain ⟨s1, s2, hs, ha, hb⟩ :=
        escape_split_raw (by decide) (by decide) (by decide) hB hdec
      by_cases hvp : validOptionalPort postE = true
      · rw [if_neg (by simp [hvp])] at hp
        cases hss : splitSub [37, 50, 53] preE with
        | none =>
          rw [hss] at hp
          exact unescape_escape (by decide) (by decide) hB hp
        | some ab =>
          obtain ⟨aE, bE⟩ := ab
          rw [hss] at hp
          dsimp only at hp
          obtain ⟨hpre, hpref⟩ := splitSub_some _ _ _ _ hss
          obtain ⟨bE2, hbE⟩ := isPrefixOf3 _ _ _ _ hpref
          rw [hbE] at hpre
          have hBs1 : Bytes s1 := (bytes_append.mp (hs ▸ hB)).1
          have hBs2 : Bytes s2 := (bytes_cons.mp (bytes_append.mp (hs ▸ hB)).2).2
          obtain ⟨t1, t2, hst, hat, hbt⟩ :=
            escape_split_25 (by decide) hBs1 (ha.trans hpre)
          have hBt1 : Bytes t1 := (bytes_append.mp (hst ▸ hBs1)).1
          have hBt2 : Bytes t2 := (bytes_cons.mp (bytes_append.mp (hst ▸ hBs1)).2).2
          cases hu1 : unescape aE Enc.host with
          | none => rw [hu1] at hp; exact Option.noConfusion hp
          | some x1 =>
            cases hu2 : unescape bE Enc.zone with
            | none => rw [hu1, hu2] at hp; exact Option.noConfusion hp
            | some x2 =>
              cases hu3 : unescape (93 :: postE) Enc.host with
              | none => rw [hu1, hu2, hu3] at hp; exact Option.noConfusion hp
              | some x3 =>
                rw [hu1, hu2, hu3] at hp
                dsimp only at hp
                injection hp with hp1
                have e1 : x1 = t1 := unescape_escape
                  (show Enc.host ≠ Enc.queryComponent by decide)
                  (show Enc.host ≠ Enc.queryComponent by decide) hBt1
                  (by rw [hat]; exact hu1)
                have hesc37 : escape (37 :: t2) Enc.host =
                    37 :: 50 :: 53 :: escape t2 Enc.host := rfl
                have e2 : x2 = 37 :: t2 := unescape_escape
                  (show Enc.host ≠ Enc.queryComponent by decide)
                  (show Enc.zone ≠ Enc.queryComponent by decide)
                  (bytes_cons.mpr ⟨by omega, hBt2⟩)
                  (by rw [hesc37, hbt, ← hbE]; exact hu2)
                have e3 : x3 = 93 :: s2 := unescape_escape
                  (show Enc.host ≠ Enc.queryComponent by decide)
                  (show Enc.host ≠ Enc.queryComponent by decide)
                  (bytes_cons.mpr ⟨by omega, hBs2⟩)
                  (by
                    rw [escape_head_raw
                      (show shouldEscape 93 Enc.host = false by decide), hb]
                    exact hu3)
                rw [← hp1, e1, e2, e3, hs, hst]
      · rw [if_pos (by simp [Bool.not_eq_true] at hvp ⊢; exact hvp)] at hp
        exact Option.noConfusion hp
  · rw [if_neg hbr] at hp
    cases hsl : splitLast (escape h Enc.host) 58 with
    | some pr =>
      obtain ⟨a0, b0⟩ := pr
      rw [hsl] at hp
      dsimp only at hp
      by_cases hvp : validOptionalPort (58 :: b0) = true
      · rw [if_neg (by simp [hvp])] at hp
        exact unescape_escape (by decide) (by decide) hB hp
      · rw [if_pos (by simp [Bool.not_eq_true] at hvp ⊢; exact hvp)] at hp
        exact Option.noConfusion hp
    | none =>
      rw [hsl] at hp
      dsimp only at hp
      exact unescape_escape (by decide) (by decide) hB hp

/-- The authority substring written by `URL.String` (userinfo, `@`, escaped
host). -/
def authStr (u : GoURL) : Str :=
  (match u.user with
   | some ui => userinfoString (some ui) ++ [64]
   | none => []) ++
  (if u.host ≠ [] then escape u.host Enc.host else [])

theorem authStr_host (u : GoURL) :
    (if u.host ≠ [] then escape u.host Enc.host else []) =
      escape u.host Enc.host := by
  split_ifs with hh
  · rfl
  · rw [not_not.mp hh]
    rfl

/-- If re-parsing the serialized authority succeeds, it returns the original
user and host. -/
theorem parseAuthority_escape {u : GoURL} {uv : Option Userinfo} {hv : Str}
    (hBh : Bytes u.host)
    (hU : ∀ ui, u.user = some ui → Bytes ui.username ∧ Bytes ui.password ∧
      (ui.passwordSet = false → ui.password = []))
    (hp : parseAuthority (authStr u) = some (uv, hv)) :
    uv = u.user ∧ hv = u.host := by
  have h64host : (64 : Nat) ∉ escape u.host Enc.host :=
    escape_not_mem hBh (by decide) (by decide) (by decide) (by decide)
  unfold authStr at hp
  rw [authStr_host] at hp
  cases huser : u.user with
  | none =>
    rw [huser] at hp
    dsimp only at hp
    rw [List.nil_append] at hp
    unfold parseAuthority at hp
    rw [splitLast_eq_none _ _ h64host] at hp
    dsimp only at hp
    cases hph : parseHost (escape u.host Enc.host) with
    | none => rw [hph] at hp; exact Option.noConfusion hp
    | some hh =>
      rw [hph] at hp
      dsimp only at hp
      injection hp with hp1
      injection hp1 with hp2 hp3
      exact ⟨hp2.symm, hp3.symm.trans (parseHost_escape hBh hph)⟩
  | some ui =>
    obtain ⟨hBun, hBpw, hps⟩ := hU ui (by rw [huser])
    obtain ⟨un, pw, ps⟩ := ui
    dsimp only at hBun hBpw hps
    rw [huser] at hp
    dsimp only at hp
    have h58un : (58 : Nat) ∉ escape un Enc.userPassword :=
      escape_not_mem hBun (by decide) (by decide) (by decide) (by decide)
    cases ps with
    | true =>
      have huis : userinfoString (some ⟨un, pw, true⟩) =
          escape un Enc.userPassword ++ 58 :: escape pw Enc.userPassword := rfl
      rw [huis] at hp
      have hassoc : (escape un Enc.userPassword ++
            58 :: escape pw Enc.userPassword) ++ [64] ++
            escape u.host Enc.host =
          (escape un Enc.userPassword ++ 58 :: escape pw Enc.userPassword) ++
            64 :: escape u.host Enc.host := by
        simp [List.append_assoc]
      rw [hassoc] at hp
      unfold parseAuthority at hp
      rw [splitLast_append _ _ _ h64host] at hp
      dsimp only at hp
      cases hph : parseHost (escape u.host Enc.host) with
      | none => rw [hph] at hp; exact Option.noConfusion hp
      | some hh =>
        rw [hph] at hp
        dsimp only at hp
        have hhh : hh = u.host := parseHost_escape hBh hph
        by_cases hvu : validUserinfo (escape un Enc.userPassword ++
            58 :: escape pw Enc.userPassword) = true
        · rw [if_neg (by simp [hvu])] at hp
          have hmem58 : hasByte (escape un Enc.userPassword ++
              58 :: escape pw Enc.userPassword) 58 = true := by
            rw [hasByte_iff]
            exact List.mem_append.mpr (Or.inr (List.mem_cons_self _ _))
          rw [if_pos hmem58] at hp
          rw [goSplit_append_cut _ _ _ h58un] at hp
          dsimp only at hp
          cases hun1 : unescape (escape un Enc.userPassword)
              Enc.userPassword with
          | none => rw [hun1] at hp; exact Option.noConfusion hp
          | some un2 =>
            cases hun2 : unescape (escape pw Enc.userPassword)
                Enc.userPassword with
            | none => rw [hun1, hun2] at hp; exact Option.noConfusion hp
            | some pw2 =>
              rw [hun1, hun2] at hp
              dsimp only at hp
              injection hp with hp1
              injection hp1 with hp2 hp3
              refine ⟨?_, hp3.symm.trans hhh⟩
              rw [← hp2,
                unescape_escape (show Enc.userPassword ≠ Enc.queryComponent
                    by decide)
                  (show Enc.userPassword ≠ Enc.queryComponent by decide)
                  hBun hun1,
                unescape_escape (show Enc.userPassword ≠ Enc.queryComponent
                    by decide)
                  (show Enc.userPassword ≠ Enc.queryComponent by decide)
                  hBpw hun2]
        · rw [if_pos (by simp [Bool.not_eq_true] at hvu ⊢; exact hvu)] at hp
          exact Option.noConfusion hp
    | false =>
      have hpw : pw = [] := hps rfl
      subst hpw
      have huis : userinfoString (some ⟨un, [], false⟩) =
          escape un Enc.userPassword := by
        simp [userinfoString]
      rw [huis] at hp
      have hassoc : escape un Enc.userPassword ++ [64] ++
            escape u.host Enc.host =
          escape un Enc.userPassword ++ 64 :: escape u.host Enc.host := by
        simp [List.append_assoc]
      rw [hassoc] at hp
      unfold parseAuthority at hp
      rw [splitLast_append _ _ _ h64host] at hp
      dsimp only at hp
      cases hph : parseHost (escape u.host Enc.host) with
      | none => rw [hph] at hp; exact Option.noConfusion hp
      | some hh =>
        rw [hph] at hp
        dsimp only at hp
        have hhh : hh = u.host := parseHost_escape hBh hph
        by_cases hvu : validUserinfo (escape un Enc.userPassword) = true
        · rw [if_neg (by simp [hvu])] at hp
          have hmem58 : hasByte (escape un Enc.userPassword) 58 = false := by
            cases hx : hasByte (escape un Enc.userPassword) 58 with
            | false => rfl
            | true => exact absurd (hasByte_iff.mp hx) h58un
          rw [if_neg (by simp [hmem58])] at hp
          cases hun1 : unescape (escape un Enc.userPassword)
              Enc.userPassword with
          | none => rw [hun1] at hp; exact Option.noConfusion hp
          | some un2 =>
            rw [hun1] at hp
            dsimp only at hp
            injection hp with hp1
            injection hp1 with hp2 hp3
            refine ⟨?_, hp3.symm.trans hhh⟩
            rw [← hp2,
              unescape_escape (show Enc.userPassword ≠ Enc.queryComponent
                  by decide)
                (show Enc.userPassword ≠ Enc.queryComponent by decide)
                hBun hun1]
        · rw [if_pos (by simp [Bool.not_eq_true] at hvu ⊢; exact hvu)] at hp
          exact Option.noConfusion hp
/-! ### Lemmas for C6: getScheme, split plumbing, urlString normal form -/

theorem getScheme_http (z : Str) :
    getScheme (str "http" ++ 58 :: z) = some (str "http", z) := rfl

theorem getScheme_https (z : Str) :
    getScheme (str "https" ++ 58 :: z) = some (str "https", z) := rfl

theorem getScheme_concrete {sch : Str}
    (h : sch = str "http" ∨ sch = str "https") (z : Str) :
    getScheme (sch ++ 58 :: z) = some (sch, z) := by
  rcases h with h | h <;> rw [h]
  · exact getScheme_http z
  · exact getScheme_https z

theorem toLowerAscii_concrete {sch : Str}
    (h : sch = str "http" ∨ sch = str "https") : toLowerAscii sch = sch := by
  rcases h with h | h <;> rw [h] <;> rfl

theorem scheme_ne_nil {sch : Str}
    (h : sch = str "http" ∨ sch = str "https") : sch ≠ [] := by
  rcases h with h | h <;> rw [h] <;> exact fun hh => List.noConfusion hh

theorem scheme_no35 {sch : Str}
    (h : sch = str "http" ∨ sch = str "https") : (35 : Nat) ∉ sch := by
  rcases h with h | h <;> rw [h] <;> decide

theorem scheme_no63 {sch : Str}
    (h : sch = str "http" ∨ sch = str "https") : (63 : Nat) ∉ sch := by
  rcases h with h | h <;> rw [h] <;> decide

theorem goSplit_cons (c : Nat) (r : Str) (sep : Nat) (cutc : Bool) :
    goSplit (c :: r) sep cutc =
      if c = sep then ([], if cutc then r else c :: r)
      else (c :: (goSplit r sep cutc).1, (goSplit r sep cutc).2) := rfl

theorem goSplit_append_left : ∀ (a b : Str) (sep : Nat) (cutc : Bool),
    sep ∉ a → goSplit (a ++ b) sep cutc =
      (a ++ (goSplit b sep cutc).1, (goSplit b sep cutc).2) := by
  intro a b sep cutc
  induction a with
  | nil => intro _; simp
  | cons c r ih =>
    intro hna
    rw [List.cons_append, goSplit_cons,
      if_neg (fun hh => hna (List.mem_cons.mpr (Or.inl hh.symm))),
      ih (fun hh => hna (List.mem_cons_of_mem c hh))]
    rfl

theorem goSplit_fst_subset : ∀ (s : Str) (sep : Nat) (cutc : Bool),
    ∀ x ∈ (goSplit s sep cutc).1, x ∈ s := by
  intro s sep cutc
  induction s with
  | nil => intro x hx; cases hx
  | cons c r ih =>
    intro x hx
    unfold goSplit at hx
    by_cases hc : c = sep
    · rw [if_pos hc] at hx
      cases hx
    · rw [if_neg hc] at hx
      dsimp only at hx
      rcases List.mem_cons.mp hx with hx | hx
      · exact hx ▸ List.mem_cons_self c r
      · exact List.mem_cons_of_mem c (ih x hx)

theorem goSplit_snd_subset : ∀ (s : Str) (sep : Nat) (cutc : Bool),
    ∀ x ∈ (goSplit s sep cutc).2, x ∈ s := by
  intro s sep cutc
  induction s with
  | nil => intro x hx; cases hx
  | cons c r ih =>
    intro x hx
    unfold goSplit at hx
    by_cases hc : c = sep
    · rw [if_pos hc] at hx
      dsimp only at hx
      cases cutc with
      | true => exact List.mem_cons_of_mem c hx
      | false => exact hx
    · rw [if_neg hc] at hx
      dsimp only at hx
      exact List.mem_cons_of_mem c (ih x hx)

theorem getSchemeAux_subset (full : Str) :
    ∀ (l acc : Str) (sch rest : Str), (∀ x ∈ l, x ∈ full) →
      getSchemeAux full acc l = some (sch, rest) → ∀ x ∈ rest, x ∈ full := by
  intro l
  induction l with
  | nil =>
    intro acc sch rest _ h x hx
    cases h
    exact hx
  | cons c r ih =>
    intro acc sch rest hsub h x hx
    have hsubr : ∀ y ∈ r, y ∈ full := fun y hy => hsub y (List.mem_cons_of_mem c hy)
    unfold getSchemeAux at h
    split_ifs at h with h1 h2 h3 h4 h5 <;>
      first
        | exact ih _ _ _ hsubr h x hx
        | exact Option.noConfusion h
        | (cases h; first | exact hx | exact hsubr x hx)

theorem getScheme_subset {s sch rest : Str} (h : getScheme s = some (sch, rest)) :
    ∀ x ∈ rest, x ∈ s :=
  getSchemeAux_subset s s [] sch rest (fun _ hx => hx) h

theorem head47_hasPref {s : Str} (h : s.head? = some 47) :
    hasPref [47] s = true := by
  obtain ⟨t, ht⟩ := head47_shape h
  rw [ht]
  rfl

/-- Normal form of `URL.String` for the URLs produced by parsing an
`http(s)://` URL. -/
theorem urlString_normal {u : GoURL} (hs : u.scheme ≠ []) (ho : u.opq = [])
    (hm : u.omitHost = false) (hp : u.path.head? = some 47)
    (hr : u.rawPath = [] ∨ u.rawPath.head? = some 47) :
    urlString u = u.scheme ++ 58 :: 47 :: 47 ::
      (authStr u ++ escapedPath u ++ querySuffix u ++ fragSuffix u) := by
  have hpne : u.path ≠ [] := by
    intro hh
    rw [hh] at hp
    cases hp
  have hep47 : (escapedPath u).head? = some 47 := escapedPath_head47 hp hr
  have hne2 : ∀ x y : Str, ((u.scheme ++ [58]) ++ x) ++ y ≠ [] := by
    intro x y hh
    exact hs (List.append_eq_nil.mp
      (List.append_eq_nil.mp (List.append_eq_nil.mp hh).1).1).1
  unfold urlString
  rw [if_pos hs]
  rw [if_neg (show ¬u.opq ≠ [] from fun hh => hh ho)]
  dsimp only
  rw [if_pos (show u.scheme ≠ [] ∨ u.host ≠ [] ∨ u.user ≠ none from Or.inl hs)]
  rw [if_neg (show ¬(u.omitHost = true ∧ u.host = [] ∧ u.user = none) from
    fun hh => by rw [hm] at hh; exact Bool.noConfusion hh.1)]
  rw [if_pos (show u.host ≠ [] ∨ u.path ≠ [] ∨ u.user ≠ none from
    Or.inr (Or.inl hpne))]
  rw [if_neg (show ¬(escapedPath u ≠ [] ∧ (escapedPath u).head? ≠ some 47 ∧
      u.host ≠ []) from fun hh => hh.2.1 hep47)]
  split_ifs with hA hB hC
  · exact absurd hB.1 (hne2 _ _)
  · unfold authStr
    simp [hA, List.append_assoc]
  · exact absurd hC.1 (hne2 _ _)
  · unfold authStr
    rw [not_not] at hA
    simp [hA, List.append_assoc]

/-! ### Lemmas for C6: byte bounds through parsing -/

theorem parseHost_bytes {hRaw hh : Str} (hB : Bytes hRaw)
    (hp : parseHost hRaw = some hh) : Bytes hh := by
  unfold parseHost at hp
  by_cases hbr : hasPref [91] hRaw = true
  · rw [if_pos hbr] at hp
    cases hsl : splitLast hRaw 93 with
    | none => rw [hsl] at hp; exact Option.noConfusion hp
    | some pr =>
      obtain ⟨pre, post⟩ := pr
      rw [hsl] at hp
      dsimp only at hp
      obtain ⟨hdec, _⟩ := splitLast_spec _ _ _ _ hsl
      have hBpre : Bytes pre := (bytes_append.mp (hdec ▸ hB)).1
      have hBpost : Bytes post := (bytes_cons.mp (bytes_append.mp (hdec ▸ hB)).2).2
      split at hp
      · exact Option.noConfusion hp
      · cases hss : splitSub [37, 50, 53] pre with
        | none =>
          rw [hss] at hp
          exact unescape_bytes hB hp
        | some ab =>
          obtain ⟨a, b⟩ := ab
          rw [hss] at hp
          dsimp only at hp
          obtain ⟨hpre2, _⟩ := splitSub_some _ _ _ _ hss
          have hBa : Bytes a := (bytes_append.mp (hpre2 ▸ hBpre)).1
          have hBb : Bytes b := (bytes_append.mp (hpre2 ▸ hBpre)).2
          cases hu1 : unescape a Enc.host with
          | none => rw [hu1] at hp; exact Option.noConfusion hp
          | some x1 =>
            cases hu2 : unescape b Enc.zone with
            | none => rw [hu1, hu2] at hp; exact Option.noConfusion hp
            | some x2 =>
              cases hu3 : unescape (93 :: post) Enc.host with
              | none => rw [hu1, hu2, hu3] at hp; exact Option.noConfusion hp
              | some x3 =>
                rw [hu1, hu2, hu3] at hp
                dsimp only at hp
                injection hp with hp1
                rw [← hp1]
                exact bytes_append.mpr ⟨bytes_append.mpr
                  ⟨unescape_bytes hBa hu1, unescape_bytes hBb hu2⟩,
                  unescape_bytes (bytes_cons.mpr ⟨by omega, hBpost⟩) hu3⟩
  · rw [if_neg hbr] at hp
    cases hsl : splitLast hRaw 58 with
    | some pr =>
      obtain ⟨a0, b0⟩ := pr
      rw [hsl] at hp
      dsimp only at hp
      split at hp
      · exact Option.noConfusion hp
      · exact unescape_bytes hB hp
    | none =>
      rw [hsl] at hp
      dsimp only at hp
      exact unescape_bytes hB hp

theorem parseAuthority_bytes {A : Str} {uu : Option Userinfo} {hh : Str}
    (hB : Bytes A) (hp : parseAuthority A = some (uu, hh)) :
    Bytes hh ∧ ∀ ui, uu = some ui → Bytes ui.username ∧ Bytes ui.password ∧
      (ui.passwordSet = false → ui.password = []) := by
  unfold parseAuthority at hp
  cases hsl : splitLast A 64 with
  | none =>
    rw [hsl] at hp
    dsimp only at hp
    cases hph : parseHost A with
    | none => rw [hph] at hp; exact Option.noConfusion hp
    | some h1 =>
      rw [hph] at hp
      dsimp only at hp
      injection hp with hp1
      injection hp1 with hp2 hp3
      refine ⟨hp3 ▸ parseHost_bytes hB hph, ?_⟩
      intro ui hui
      rw [← hp2] at hui
      exact Option.noConfusion hui
  | some pr =>
    obtain ⟨ui0, hostRaw⟩ := pr
    rw [hsl] at hp
    dsimp only at hp
    obtain ⟨hdec, _⟩ := splitLast_spec _ _ _ _ hsl
    have hBu : Bytes ui0 := (bytes_append.mp (hdec ▸ hB)).1
    have hBhr : Bytes hostRaw := (bytes_cons.mp (bytes_append.mp (hdec ▸ hB)).2).2
    cases hph : parseHost hostRaw with
    | none => rw [hph] at hp; exact Option.noConfusion hp
    | some h1 =>
      rw [hph] at hp
      dsimp only at hp
      split at hp
      · exact Option.noConfusion hp
      · split at hp
        · try dsimp only at hp
          cases hu1 : unescape (goSplit ui0 58 true).1 Enc.userPassword with
          | none => rw [hu1] at hp; exact Option.noConfusion hp
          | some un =>
            cases hu2 : unescape (goSplit ui0 58 true).2 Enc.userPassword with
            | none => rw [hu1, hu2] at hp; exact Option.noConfusion hp
            | some pw =>
              rw [hu1, hu2] at hp
              dsimp only at hp
              injection hp with hp1
              injection hp1 with hp2 hp3
              refine ⟨hp3 ▸ parseHost_bytes hBhr hph, ?_⟩
              intro ui hui
              rw [← hp2] at hui
              injection hui with hui1
              rw [← hui1]
              exact ⟨unescape_bytes
                  (bytes_of_subset hBu (goSplit_fst_subset _ _ _)) hu1,
                unescape_bytes
                  (bytes_of_subset hBu (goSplit_snd_subset _ _ _)) hu2,
                fun hf => Bool.noConfusion hf⟩
        · cases hu1 : unescape ui0 Enc.userPassword with
          | none => rw [hu1] at hp; exact Option.noConfusion hp
          | some un =>
            rw [hu1] at hp
            dsimp only at hp
            injection hp with hp1
            injection hp1 with hp2 hp3
            refine ⟨hp3 ▸ parseHost_bytes hBhr hph, ?_⟩
            intro ui hui
            rw [← hp2] at hui
            injection hui with hui1
            rw [← hui1]
            exact ⟨unescape_bytes hBu hu1, bytes_nil, fun _ => rfl⟩

/-- Invariant satisfied by every URL produced by parsing an `http(s)://...`
byte string (after the empty path is defaulted to `/`). -/
structure URLInv (u : GoURL) : Prop where
  scheme_eq : u.scheme = str "http" ∨ u.scheme = str "https"
  opq_nil : u.opq = []
  omit_false : u.omitHost = false
  path_head : u.path.head? = some 47
  rawPath_head : u.rawPath = [] ∨ u.rawPath.head? = some 47
  bytes_path : Bytes u.path
  bytes_host : Bytes u.host
  user_inv : ∀ ui, u.user = some ui → Bytes ui.username ∧ Bytes ui.password ∧
    (ui.passwordSet = false → ui.password = [])
  fq_nil : u.forceQuery = true → u.rawQuery = []
  rq_no35 : (35 : Nat) ∉ u.rawQuery
  bytes_frag : Bytes u.fragment

/-! ### Lemmas for C6: parseInner on `http(s)://` inputs -/

theorem parseInner_http {sch X : Str} {uI : GoURL}
    (hschEq : sch = str "http" ∨ sch = str "https")
    (hpi : parseInner (sch ++ 58 :: 47 :: 47 :: X) = some uI) :
    ∃ (rT rq : Str) (fq : Bool),
      (((47 :: 47 :: X).getLast? = some 63 ∧
          ¬hasByte (47 :: 47 :: X).dropLast 63 = true) ∧
        rT = X.dropLast ∧ rq = [] ∧ fq = true ∨
       ¬((47 :: 47 :: X).getLast? = some 63 ∧
          ¬hasByte (47 :: 47 :: X).dropLast 63 = true) ∧
        rT = (goSplit X 63 true).1 ∧ rq = (goSplit X 63 true).2 ∧ fq = false) ∧
      ∃ user host pp,
        parseAuthority (goSplit rT 47 false).1 = some (user, host) ∧
        setPath (goSplit rT 47 false).2 = some pp ∧
        uI = ⟨sch, [], user, host, pp.1, pp.2, false, fq, rq, [], []⟩ := by
  have hschne : sch ≠ [] := scheme_ne_nil hschEq
  have hne42 : sch ++ 58 :: 47 :: 47 :: X ≠ [42] := by
    intro hh
    rcases hschEq with h | h <;> subst h <;>
      simp [show str "http" = ([104, 116, 116, 112] : Str) from rfl,
        show str "https" = ([104, 116, 116, 112, 115] : Str) from rfl] at hh
  have hgs : getScheme (sch ++ 58 :: 47 :: 47 :: X) =
      some (sch, 47 :: 47 :: X) := getScheme_concrete hschEq _
  unfold parseInner at hpi
  cases hctl : containsCTLByte (sch ++ 58 :: 47 :: 47 :: X) with
  | true =>
    rw [if_pos hctl] at hpi
    exact Option.noConfusion hpi
  | false =>
  rw [if_neg (by simp [hctl]), if_neg hne42, hgs] at hpi
  dsimp only at hpi
  rw [toLowerAscii_concrete hschEq] at hpi
  by_cases htr : (47 :: 47 :: X).getLast? = some 63 ∧
      ¬hasByte (47 :: 47 :: X).dropLast 63 = true
  · rw [if_pos htr] at hpi
    dsimp only at hpi
    have hXne : X ≠ [] := by
      intro hh
      rw [hh] at htr
      exact absurd htr.1 (by decide)
    have hdl : (47 :: 47 :: X).dropLast = 47 :: 47 :: X.dropLast := by
      cases X with
      | nil => exact absurd rfl hXne
      | cons a r => rfl
    rw [hdl] at hpi
    refine ⟨X.dropLast, [], true, Or.inl ⟨htr, rfl, rfl, rfl⟩, ?_⟩
    rw [if_neg (fun hh => hh.1 rfl), if_neg (fun hh => hschne hh.2.1),
      if_pos ⟨Or.inl hschne, rfl⟩] at hpi
    rw [show ((47 : Nat) :: 47 :: X.dropLast).drop 2 = X.dropLast from rfl] at hpi
    cases hpa : parseAuthority (goSplit X.dropLast 47 false).1 with
    | none => rw [hpa] at hpi; exact Option.noConfusion hpi
    | some uh =>
      obtain ⟨user, host⟩ := uh
      rw [hpa] at hpi
      try dsimp only at hpi
      cases hsp : setPath (goSplit X.dropLast 47 false).2 with
      | none => rw [hsp] at hpi; exact Option.noConfusion hpi
      | some pp =>
        rw [hsp] at hpi
        try dsimp only at hpi
        injection hpi with hpi1
        exact ⟨user, host, pp, rfl, rfl, hpi1.symm⟩
  · rw [if_neg htr] at hpi
    dsimp only at hpi
    have hq2 : goSplit ((47 : Nat) :: 47 :: X) 63 true =
        (47 :: 47 :: (goSplit X 63 true).1, (goSplit X 63 true).2) := by
      rw [show (47 : Nat) :: 47 :: X = [47, 47] ++ X from rfl,
        goSplit_append_left _ _ _ _ (by decide)]
      rfl
    rw [hq2] at hpi
    dsimp only at hpi
    refine ⟨(goSplit X 63 true).1, (goSplit X 63 true).2, false,
      Or.inr ⟨htr, rfl, rfl, rfl⟩, ?_⟩
    rw [if_neg (fun hh => hh.1 rfl), if_neg (fun hh => hschne hh.2.1),
      if_pos ⟨Or.inl hschne, rfl⟩] at hpi
    rw [show ((47 : Nat) :: 47 :: (goSplit X 63 true).1).drop 2 =
      (goSplit X 63 true).1 from rfl] at hpi
    cases hpa : parseAuthority (goSplit (goSplit X 63 true).1 47 false).1 with
    | none => rw [hpa] at hpi; exact Option.noConfusion hpi
    | some uh =>
      obtain ⟨user, host⟩ := uh
      rw [hpa] at hpi
      try dsimp only at hpi
      cases hsp : setPath (goSplit (goSplit X 63 true).1 47 false).2 with
      | none => rw [hsp] at hpi; exact Option.noConfusion hpi
      | some pp =>
        rw [hsp] at hpi
        try dsimp only at hpi
        injection hpi with hpi1
        exact ⟨user, host, pp, rfl, rfl, hpi1.symm⟩

/-! ### Lemmas for C6: parse establishes the invariant -/

theorem goParse_inv {sch t : Str} {u : GoURL}
    (hschEq : sch = str "http" ∨ sch = str "https")
    (hB : Bytes (sch ++ 58 :: 47 :: 47 :: t))
    (hp : goParse (sch ++ 58 :: 47 :: 47 :: t) = some u) :
    URLInv (if u.path = [] then { u with path := [47] } else u) := by
  have h35 : (35 : Nat) ∉ sch ++ [58, 47, 47] := by
    intro hm
    rcases List.mem_append.mp hm with h | h
    · exact scheme_no35 hschEq h
    · exact absurd h (by decide)
  have hsplit : goSplit (sch ++ 58 :: 47 :: 47 :: t) 35 true =
      ((sch ++ [58, 47, 47]) ++ (goSplit t 35 true).1, (goSplit t 35 true).2) := by
    rw [show sch ++ 58 :: 47 :: 47 :: t = (sch ++ [58, 47, 47]) ++ t by simp]
    exact goSplit_append_left _ _ _ _ h35
  have hBt : Bytes t :=
    (bytes_cons.mp (bytes_cons.mp (bytes_cons.mp
      (bytes_append.mp hB).2).2).2).2
  have hBt1 : Bytes (goSplit t 35 true).1 :=
    bytes_of_subset hBt (goSplit_fst_subset _ _ _)
  unfold goParse at hp
  rw [hsplit] at hp
  dsimp only at hp
  rw [show (sch ++ [58, 47, 47]) ++ (goSplit t 35 true).1 =
      sch ++ 58 :: 47 :: 47 :: (goSplit t 35 true).1 by simp] at hp
  cases hpi : parseInner (sch ++ 58 :: 47 :: 47 :: (goSplit t 35 true).1) with
  | none => rw [hpi] at hp; exact Option.noConfusion hp
  | some uI =>
  rw [hpi] at hp
  dsimp only at hp
  obtain ⟨rT, rq, fq, hqp, user, host, pp, hpa, hsp, huI⟩ :=
    parseInner_http hschEq hpi
  obtain ⟨p1, p2⟩ := pp
  have hBrT : Bytes rT := by
    rcases hqp with ⟨_, hrT, _, _⟩ | ⟨_, hrT, _, _⟩
    · rw [hrT]
      exact bytes_of_subset hBt1 (fun x hx => (List.dropLast_sublist _).subset hx)
    · rw [hrT]
      exact bytes_of_subset hBt1 (goSplit_fst_subset _ _ _)
  have hBA : Bytes (goSplit rT 47 false).1 :=
    bytes_of_subset hBrT (goSplit_fst_subset _ _ _)
  have hBP : Bytes (goSplit rT 47 false).2 :=
    bytes_of_subset hBrT (goSplit_snd_subset _ _ _)
  obtain ⟨hBhost, hUinv⟩ := parseAuthority_bytes hBA hpa
  have hsp2 := hsp
  unfold setPath at hsp2
  cases hun : unescape (goSplit rT 47 false).2 Enc.path with
  | none => rw [hun] at hsp2; exact Option.noConfusion hsp2
  | some path0 =>
  rw [hun] at hsp2
  try dsimp only at hsp2
  injection hsp2 with hsp3
  injection hsp3 with hsp4 hsp5
  subst hsp4
  subst hsp5
  have hP0 := goSplit_snd_head rT 47
  have hpathfact : (path0 = [] ∧
      (if (goSplit rT 47 false).2 = escape path0 Enc.path then []
       else (goSplit rT 47 false).2) = []) ∨
      (path0.head? = some 47 ∧
      ((if (goSplit rT 47 false).2 = escape path0 Enc.path then []
        else (goSplit rT 47 false).2) = [] ∨
       (if (goSplit rT 47 false).2 = escape path0 Enc.path then []
        else (goSplit rT 47 false).2).head? = some 47)) := by
    rcases hP0 with h0 | h0
    · left
      have hpath0 : path0 = [] := by
        rw [h0] at hun
        injection hun with hx
        exact hx.symm
      rw [h0, hpath0]
      refine ⟨rfl, ?_⟩
      split_ifs <;> rfl
    · right
      obtain ⟨z, hz⟩ := head47_shape h0
      refine ⟨unescape_head47 (hz ▸ hun), ?_⟩
      split_ifs with hc
      · exact Or.inl rfl
      · exact Or.inr h0
  have hfq1 : fq = true → rq = [] := by
    rcases hqp with ⟨_, _, hrq, hfq⟩ | ⟨_, _, hrq, hfq⟩
    · exact fun _ => hrq
    · intro hff
      rw [hfq] at hff
      exact Bool.noConfusion hff
  have hrq35 : (35 : Nat) ∉ rq := by
    rcases hqp with ⟨_, _, hrq, _⟩ | ⟨_, _, hrq, _⟩
    · rw [hrq]
      exact List.not_mem_nil 35
    · rw [hrq]
      intro hm
      exact goSplit_fst_not_mem t 35 true (goSplit_snd_subset _ _ _ _ hm)
  have hBpath : Bytes path0 := unescape_bytes hBP hun
  by_cases hf : (goSplit t 35 true).2 = []
  · rw [if_pos hf] at hp
    injection hp with hp1
    subst hp1
    subst huI
    dsimp only
    by_cases hpath : path0 = []
    · rw [if_pos hpath]
      rcases hpathfact with ⟨_, hp2⟩ | ⟨hh, _⟩
      · exact ⟨hschEq, rfl, rfl, rfl, Or.inl hp2,
          (show Bytes [47] by decide), hBhost, hUinv, hfq1, hrq35, bytes_nil⟩
      · rw [hpath] at hh
        cases hh
    · rw [if_neg hpath]
      rcases hpathfact with ⟨hz, _⟩ | ⟨hh, hrawh⟩
      · exact absurd hz hpath
      · exact ⟨hschEq, rfl, rfl, hh, hrawh, hBpath,
          hBhost, hUinv, hfq1, hrq35, bytes_nil⟩
  · rw [if_neg hf] at hp
    cases hsf : setFragment (goSplit t 35 true).2 with
    | none => rw [hsf] at hp; exact Option.noConfusion hp
    | some fr =>
    rw [hsf] at hp
    dsimp only at hp
    injection hp with hp1
    subst hp1
    subst huI
    dsimp only
    have hBfr : Bytes fr.1 := by
      have hsf2 := hsf
      unfold setFragment at hsf2
      cases hunf : unescape (goSplit t 35 true).2 Enc.fragment with
      | none => rw [hunf] at hsf2; exact Option.noConfusion hsf2
      | some fr1 =>
        rw [hunf] at hsf2
        try dsimp only at hsf2
        injection hsf2 with hsf3
        rw [← hsf3]
        exact unescape_bytes
          (bytes_of_subset hBt (goSplit_snd_subset _ _ _)) hunf
    by_cases hpath : path0 = []
    · rw [if_pos hpath]
      rcases hpathfact with ⟨_, hp2⟩ | ⟨hh, _⟩
      · exact ⟨hschEq, rfl, rfl, rfl, Or.inl hp2,
          (show Bytes [47] by decide), hBhost, hUinv, hfq1, hrq35, hBfr⟩
      · rw [hpath] at hh
        cases hh
    · rw [if_neg hpath]
      rcases hpathfact with ⟨hz, _⟩ | ⟨hh, hrawh⟩
      · exact absurd hz hpath
      · exact ⟨hschEq, rfl, rfl, hh, hrawh, hBpath,
          hBhost, hUinv, hfq1, hrq35, hBfr⟩
/-! ### Lemmas for C6: re-parsing the serialized URL -/

theorem getLast?_mem : ∀ (l : Str) (a : Nat), l.getLast? = some a → a ∈ l := by
  intro l a h
  rw [← List.head?_reverse] at h
  cases hrev : l.reverse with
  | nil => rw [hrev] at h; cases h
  | cons b r =>
    rw [hrev] at h
    injection h with h1
    have hmem : a ∈ l.reverse := by
      rw [hrev, h1]
      exact List.mem_cons_self _ _
    exact List.mem_reverse.mp hmem

theorem hasByte_false {s : Str} {b : Nat} (h : b ∉ s) : hasByte s b = false := by
  cases hx : hasByte s b with
  | false => rfl
  | true => exact absurd (hasByte_iff.mp hx) h

theorem userinfoString_not_mem {ui : Userinfo} {c : Nat}
    (hBun : Bytes ui.username) (hBpw : Bytes ui.password)
    (hc1 : shouldEscape c Enc.userPassword = true)
    (hhex : ishex c = false) (h37 : c ≠ 37) (h58 : c ≠ 58) :
    c ∉ userinfoString (some ui) := by
  intro hm
  obtain ⟨un, pw, ps⟩ := ui
  dsimp only at hBun hBpw
  unfold userinfoString at hm
  dsimp only at hm
  rcases List.mem_append.mp hm with hm | hm
  · exact escape_not_mem hBun (by decide) h37 hhex hc1 hm
  · split_ifs at hm with hps
    · rcases List.mem_cons.mp hm with hm | hm
      · exact h58 hm
      · exact escape_not_mem hBpw (by decide) h37 hhex hc1 hm
    · cases hm

theorem authStr_not_mem {u : GoURL} {c : Nat} (hBh : Bytes u.host)
    (hU : ∀ ui, u.user = some ui → Bytes ui.username ∧ Bytes ui.password ∧
      (ui.passwordSet = false → ui.password = []))
    (hc1 : shouldEscape c Enc.userPassword = true)
    (hc2 : shouldEscape c Enc.host = true)
    (hhex : ishex c = false) (h37 : c ≠ 37) (h58 : c ≠ 58) (h64 : c ≠ 64) :
    c ∉ authStr u := by
  intro hm
  unfold authStr at hm
  rcases List.mem_append.mp hm with hm | hm
  · cases huser : u.user with
    | none => rw [huser] at hm; cases hm
    | some ui =>
      obtain ⟨hBun, hBpw, _⟩ := hU ui huser
      rw [huser] at hm
      dsimp only at hm
      rcases List.mem_append.mp hm with hm | hm
      · exact userinfoString_not_mem hBun hBpw hc1 hhex h37 h58 hm
      · rcases List.mem_cons.mp hm with hm | hm
        · exact h64 hm
        · cases hm
  · split_ifs at hm with hh
    · exact escape_not_mem hBh (by decide) h37 hhex hc2 hm
    · cases hm

/-- Characterization of the query suffix. -/
theorem querySuffix_cases (u : GoURL) (hfq : u.forceQuery = true → u.rawQuery = []) :
    (u.forceQuery = false ∧ u.rawQuery = [] ∧ querySuffix u = []) ∨
    (u.forceQuery = true ∧ u.rawQuery = [] ∧ querySuffix u = [63]) ∨
    (u.forceQuery = false ∧ u.rawQuery ≠ [] ∧
      querySuffix u = 63 :: u.rawQuery) := by
  unfold querySuffix
  cases hf : u.forceQuery with
  | true =>
    have hrq := hfq hf
    right
    left
    refine ⟨rfl, hrq, ?_⟩
    rw [if_pos (Or.inl rfl), hrq]
  | false =>
    by_cases hrq : u.rawQuery = []
    · left
      refine ⟨rfl, hrq, ?_⟩
      rw [if_neg]
      intro hh
      rcases hh with hh | hh
      · exact Bool.noConfusion hh
      · exact hh hrq
    · right
      right
      refine ⟨rfl, hrq, ?_⟩
      rw [if_pos (Or.inr hrq)]

/-- Re-parsing `scheme://` + authority + path + query recovers the URL's
fields (given that the parse succeeds). -/
theorem parseInner_roundtrip {u uI : GoURL} (inv : URLInv u)
    (hpi : parseInner (u.scheme ++ 58 :: 47 :: 47 ::
      (authStr u ++ escapedPath u ++ querySuffix u)) = some uI) :
    ∃ path0, unescape (escapedPath u) Enc.path = some path0 ∧
      uI = ⟨u.scheme, [], u.user, u.host, path0,
        (if escapedPath u = escape path0 Enc.path then []
         else escapedPath u),
        false, u.forceQuery, u.rawQuery, [], []⟩ := by
  have hP47 : (escapedPath u).head? = some 47 :=
    escapedPath_head47 inv.path_head inv.rawPath_head
  obtain ⟨P1, hP1⟩ := head47_shape hP47
  have hPval : validEncoded (escapedPath u) Enc.path = true :=
    escapedPath_valid inv.bytes_path inv.path_head
  have hP63 : (63 : Nat) ∉ escapedPath u := valid_path_no63 hPval
  have hA63 : (63 : Nat) ∉ authStr u :=
    authStr_not_mem inv.bytes_host inv.user_inv (by decide) (by decide)
      (by decide) (by decide) (by decide) (by decide)
  have hA47 : (47 : Nat) ∉ authStr u :=
    authStr_not_mem inv.bytes_host inv.user_inv (by decide) (by decide)
      (by decide) (by decide) (by decide) (by decide)
  have hAP63 : (63 : Nat) ∉ authStr u ++ escapedPath u := by
    intro hm
    rcases List.mem_append.mp hm with hm | hm
    · exact hA63 hm
    · exact hP63 hm
  obtain ⟨rT, rq, fq, hqp, user, host, pp, hpa, hsp, huI⟩ :=
    parseInner_http inv.scheme_eq hpi
  have hrT : rT = authStr u ++ escapedPath u ∧ rq = u.rawQuery ∧
      fq = u.forceQuery := by
    rcases querySuffix_cases u inv.fq_nil with ⟨hf, hq, hQ⟩ | ⟨hf, hq, hQ⟩ |
      ⟨hf, hq, hQ⟩
    · rw [hQ, List.append_nil] at hqp
      rcases hqp with ⟨⟨hc, _⟩, _, _, _⟩ | ⟨_, h1, h2, h3⟩
      · exfalso
        rcases List.mem_cons.mp (getLast?_mem _ _ hc) with hh | hh
        · exact absurd hh (by decide)
        · rcases List.mem_cons.mp hh with hh | hh
          · exact absurd hh (by decide)
          · exact hAP63 hh
      · rw [goSplit_not_mem _ _ _ hAP63] at h1 h2
        exact ⟨h1, h2.trans hq.symm, h3.trans hf.symm⟩
    · rw [hQ] at hqp
      rw [show authStr u ++ escapedPath u ++ [63] =
        (authStr u ++ escapedPath u) ++ [63] from rfl] at hqp
      rcases hqp with ⟨_, h1, h2, h3⟩ | ⟨hc, _, _, _⟩
      · rw [List.dropLast_concat] at h1
        exact ⟨h1, h2.trans hq.symm, h3.trans hf.symm⟩
      · exfalso
        apply hc
        constructor
        · rw [show (47 : Nat) :: 47 ::
            ((authStr u ++ escapedPath u) ++ [63]) =
            (47 :: 47 :: (authStr u ++ escapedPath u)) ++ [63] from rfl]
          exact List.getLast?_concat _
        · rw [show (47 : Nat) :: 47 ::
            ((authStr u ++ escapedPath u) ++ [63]) =
            (47 :: 47 :: (authStr u ++ escapedPath u)) ++ [63] from rfl,
            List.dropLast_concat]
          intro hh
          rcases List.mem_cons.mp (hasByte_iff.mp hh) with hh | hh
          · exact absurd hh (by decide)
          · rcases List.mem_cons.mp hh with hh | hh
            · exact absurd hh (by decide)
            · exact hAP63 hh
    · rw [hQ] at hqp
      rw [show authStr u ++ escapedPath u ++ 63 :: u.rawQuery =
        (authStr u ++ escapedPath u) ++ 63 :: u.rawQuery from rfl] at hqp
      rcases hqp with ⟨⟨_, hc⟩, _, _, _⟩ | ⟨_, h1, h2, h3⟩
      · exfalso
        apply hc
        rw [show (47 : Nat) :: 47 ::
            ((authStr u ++ escapedPath u) ++ 63 :: u.rawQuery) =
            (47 :: 47 :: (authStr u ++ escapedPath u)) ++ 63 :: u.rawQuery
            from rfl,
          List.dropLast_append_of_ne_nil _ (fun hh => List.noConfusion hh)]
        rw [hasByte_iff]
        refine List.mem_append.mpr (Or.inr ?_)
        cases hrw : u.rawQuery with
        | nil => exact absurd hrw hq
        | cons a r =>
          rw [show ((63 : Nat) :: a :: r).dropLast =
            63 :: (a :: r).dropLast from rfl]
          exact List.mem_cons_self _ _
      · rw [goSplit_append_cut _ _ _ hAP63] at h1 h2
        exact ⟨h1, h2, h3.trans hf.symm⟩
  obtain ⟨hrT1, hrq1, hfq1⟩ := hrT
  rw [hrT1, hP1] at hpa hsp
  rw [goSplit_append_nocut _ _ _ hA47] at hpa hsp
  dsimp only at hpa hsp
  obtain ⟨huser, hhost⟩ :=
    parseAuthority_escape inv.bytes_host inv.user_inv hpa
  unfold setPath at hsp
  cases hun : unescape (47 :: P1) Enc.path with
  | none => rw [hun] at hsp; exact Option.noConfusion hsp
  | some path0 =>
    rw [hun] at hsp
    try dsimp only at hsp
    injection hsp with hsp1
    refine ⟨path0, by rw [hP1]; exact hun, ?_⟩
    rw [huI, ← hsp1, huser, hhost, hrq1, hfq1, hP1]

/-- Serializing the URL recovered by re-parsing gives back the original
serialization. -/
theorem urlString_of_reparse {u v : GoURL} (inv : URLInv u)
    (hvs : v.scheme = u.scheme) (hvo : v.opq = []) (hvu : v.user = u.user)
    (hvh : v.host = u.host) (hvm : v.omitHost = false)
    (hvf : v.forceQuery = u.forceQuery) (hvq : v.rawQuery = u.rawQuery)
    (hun : unescape (escapedPath u) Enc.path = some v.path)
    (hvr : v.rawPath = (if escapedPath u = escape v.path Enc.path then []
      else escapedPath u))
    (hfrag : (u.fragment = [] ∧ v.fragment = [] ∧ v.rawFragment = []) ∨
      (u.fragment ≠ [] ∧
        unescape (escapedFragment u) Enc.fragment = some v.fragment ∧
        v.rawFragment = (if escapedFragment u = escape v.fragment Enc.fragment
          then [] else escapedFragment u))) :
    urlString v = urlString u ∧ v.path ≠ [] := by
  have hP47 : (escapedPath u).head? = some 47 :=
    escapedPath_head47 inv.path_head inv.rawPath_head
  obtain ⟨P1, hP1⟩ := head47_shape hP47
  have hpath47 : v.path.head? = some 47 := unescape_head47 (hP1 ▸ hun)
  have hvpne : v.path ≠ [] := by
    intro hh
    rw [hh] at hpath47
    cases hpath47
  have hPval : validEncoded (escapedPath u) Enc.path = true :=
    escapedPath_valid inv.bytes_path inv.path_head
  have hvr2 : v.rawPath = [] ∨ v.rawPath.head? = some 47 := by
    rw [hvr]
    split_ifs with hc
    · exact Or.inl rfl
    · exact Or.inr hP47
  refine ⟨?_, hvpne⟩
  rw [urlString_normal (by rw [hvs]; exact scheme_ne_nil inv.scheme_eq) hvo
    hvm hpath47 hvr2]
  rw [urlString_normal (scheme_ne_nil inv.scheme_eq) inv.opq_nil
    inv.omit_false inv.path_head inv.rawPath_head]
  have h1 : authStr v = authStr u := by
    unfold authStr
    rw [hvu, hvh]
  have h2 : escapedPath v = escapedPath u :=
    escapedPath_of_parse v hvr hun hPval hP47
  have h3 : querySuffix v = querySuffix u := by
    unfold querySuffix
    rw [hvf, hvq]
  have h4 : fragSuffix v = fragSuffix u := by
    rcases hfrag with ⟨hf0, hfv, _⟩ | ⟨hfne, hunf, hrf⟩
    · unfold fragSuffix
      rw [hfv, hf0, if_neg (fun hh => hh rfl), if_neg (fun hh => hh rfl)]
    · have hEFne : escapedFragment u ≠ [] := escapedFragment_ne_nil hfne
      have hfvne : v.fragment ≠ [] := by
        cases hEF : escapedFragment u with
        | nil => exact absurd hEF hEFne
        | cons d r =>
          rw [hEF] at hunf
          obtain ⟨d2, t2, ht⟩ := unescape_cons_shape hunf
          rw [ht]
          exact fun hh => List.noConfusion hh
      have hEFv : escapedFragment v = escapedFragment u :=
        escapedFragment_of_parse v hEFne hrf hunf
          (escapedFragment_valid inv.bytes_frag)
      unfold fragSuffix
      rw [if_pos hfvne, if_pos hfne, hEFv]
  rw [hvs, h1, h2, h3, h4]

/-- Conditional round trip: if re-parsing the serialization of an
invariant-satisfying URL succeeds, serializing the result (with the empty
path defaulted) gives back the same string. -/
theorem goParse_roundtrip {u v : GoURL} (inv : URLInv u)
    (hp : goParse (urlString u) = some v) :
    urlString (if v.path = [] then { v with path := [47] } else v) =
      urlString u := by
  have hW := urlString_normal (scheme_ne_nil inv.scheme_eq) inv.opq_nil
    inv.omit_false inv.path_head inv.rawPath_head
  have hPval : validEncoded (escapedPath u) Enc.path = true :=
    escapedPath_valid inv.bytes_path inv.path_head
  have hP35 : (35 : Nat) ∉ escapedPath u := valid_no35 hPval
  have hA35 : (35 : Nat) ∉ authStr u :=
    authStr_not_mem inv.bytes_host inv.user_inv (by decide) (by decide)
      (by decide) (by decide) (by decide) (by decide)
  have hQ35 : (35 : Nat) ∉ querySuffix u := by
    unfold querySuffix
    split_ifs with hc
    · intro hm
      rcases List.mem_cons.mp hm with hm | hm
      · exact absurd hm (by decide)
      · exact inv.rq_no35 hm
    · exact List.not_mem_nil 35
  have h35core : (35 : Nat) ∉ authStr u ++ escapedPath u ++ querySuffix u := by
    intro hm
    rcases List.mem_append.mp hm with hm | hm
    · rcases List.mem_append.mp hm with hm | hm
      · exact hA35 hm
      · exact hP35 hm
    · exact hQ35 hm
  have h35full : (35 : Nat) ∉ u.scheme ++ 58 :: 47 :: 47 ::
      (authStr u ++ escapedPath u ++ querySuffix u) := by
    intro hm
    rcases List.mem_append.mp hm with hm | hm
    · exact scheme_no35 inv.scheme_eq hm
    · rcases List.mem_cons.mp hm with hm | hm
      · exact absurd hm (by decide)
      · rcases List.mem_cons.mp hm with hm | hm
        · exact absurd hm (by decide)
        · rcases List.mem_cons.mp hm with hm | hm
          · exact absurd hm (by decide)
          · exact h35core hm
  rw [hW] at hp
  unfold goParse at hp
  by_cases hfr : u.fragment = []
  · have hF : fragSuffix u = [] := by
      unfold fragSuffix
      rw [if_neg (fun hh => hh hfr)]
    rw [hF, List.append_nil] at hp
    rw [goSplit_not_mem _ _ _ h35full] at hp
    dsimp only at hp
    cases hpi : parseInner (u.scheme ++ 58 :: 47 :: 47 ::
        (authStr u ++ escapedPath u ++ querySuffix u)) with
    | none => rw [hpi] at hp; exact Option.noConfusion hp
    | some uI =>
    rw [hpi] at hp
    dsimp only at hp
    rw [if_pos rfl] at hp
    injection hp with hp1
    obtain ⟨path0, hun, huI⟩ := parseInner_roundtrip inv hpi
    subst hp1
    subst huI
    obtain ⟨heq, hpne⟩ := @urlString_of_reparse u
      ⟨u.scheme, [], u.user, u.host, path0,
        (if escapedPath u = escape path0 Enc.path then [] else escapedPath u),
        false, u.forceQuery, u.rawQuery, [], []⟩ inv rfl rfl rfl rfl rfl rfl
      rfl hun rfl (Or.inl ⟨hfr, rfl, rfl⟩)
    dsimp only
    have hpne2 : path0 ≠ [] := hpne
    rw [if_neg hpne2]
    exact heq
  · have hF : fragSuffix u = 35 :: escapedFragment u := by
      unfold fragSuffix
      rw [if_pos hfr]
    rw [hF] at hp
    have hsplit : goSplit (u.scheme ++ 58 :: 47 :: 47 ::
        (authStr u ++ escapedPath u ++ querySuffix u ++
          35 :: escapedFragment u)) 35 true =
        (u.scheme ++ 58 :: 47 :: 47 ::
          (authStr u ++ escapedPath u ++ querySuffix u),
         escapedFragment u) := by
      rw [show u.scheme ++ 58 :: 47 :: 47 ::
          (authStr u ++ escapedPath u ++ querySuffix u ++
            35 :: escapedFragment u) =
          (u.scheme ++ 58 :: 47 :: 47 ::
            (authStr u ++ escapedPath u ++ querySuffix u)) ++
            35 :: escapedFragment u by simp [List.append_assoc]]
      rw [goSplit_append_cut _ _ _ h35full]
    rw [hsplit] at hp
    dsimp only at hp
    cases hpi : parseInner (u.scheme ++ 58 :: 47 :: 47 ::
        (authStr u ++ escapedPath u ++ querySuffix u)) with
    | none => rw [hpi] at hp; exact Option.noConfusion hp
    | some uI =>
    rw [hpi] at hp
    dsimp only at hp
    have hEFne : escapedFragment u ≠ [] := escapedFragment_ne_nil hfr
    rw [if_neg hEFne] at hp
    cases hsf : setFragment (escapedFragment u) with
    | none => rw [hsf] at hp; exact Option.noConfusion hp
    | some fr =>
    rw [hsf] at hp
    dsimp only at hp
    injection hp with hp1
    obtain ⟨path0, hun, huI⟩ := parseInner_roundtrip inv hpi
    obtain ⟨fr1, fr2⟩ := fr
    have hsf2 := hsf
    unfold setFragment at hsf2
    cases hunf : unescape (escapedFragment u) Enc.fragment with
    | none => rw [hunf] at hsf2; exact Option.noConfusion hsf2
    | some fragv =>
    rw [hunf] at hsf2
    try dsimp only at hsf2
    injection hsf2 with hsf3
    injection hsf3 with hsf4 hsf5
    subst hsf4
    subst hsf5
    subst hp1
    subst huI
    obtain ⟨heq, hpne⟩ := @urlString_of_reparse u
      ⟨u.scheme, [], u.user, u.host, path0,
        (if escapedPath u = escape path0 Enc.path then [] else escapedPath u),
        false, u.forceQuery, u.rawQuery, fragv,
        (if escapedFragment u = escape fragv Enc.fragment then []
         else escapedFragment u)⟩ inv rfl rfl rfl rfl rfl rfl
      rfl hun rfl (Or.inr ⟨hfr, hunf, rfl⟩)
    dsimp only
    have hpne2 : path0 ≠ [] := hpne
    rw [if_neg hpne2]
    exact heq

/-- Unfolding of `CanonicalizeURL`: the first application always yields the
(possibly `https://`-prefixed) input in scheme-normal form. -/
theorem canonicalize_step (s : Str) (hB : Bytes s) :
    ∃ sch t, (sch = str "http" ∨ sch = str "https") ∧
      Bytes (sch ++ 58 :: 47 :: 47 :: t) ∧
      CanonicalizeURL s =
        (match goParse (sch ++ 58 :: 47 :: 47 :: t) with
         | none => sch ++ 58 :: 47 :: 47 :: t
         | some u =>
           urlString (if u.path = [] then { u with path := [47] } else u)) := by
  unfold CanonicalizeURL
  by_cases hpre : ¬hasPref (str "http://") s = true ∧
      ¬hasPref (str "https://") s = true
  · refine ⟨str "https", s, Or.inr rfl, ?_, ?_⟩
    · exact bytes_append.mpr ⟨by decide, bytes_cons.mpr ⟨by omega,
        bytes_cons.mpr ⟨by omega, bytes_cons.mpr ⟨by omega, hB⟩⟩⟩⟩
    · rw [if_pos hpre]
      rfl
  · have hx : hasPref (str "http://") s = true ∨
        hasPref (str "https://") s = true := by
      by_cases h1 : hasPref (str "http://") s = true
      · exact Or.inl h1
      · by_cases h2 : hasPref (str "https://") s = true
        · exact Or.inr h2
        · exact absurd ⟨h1, h2⟩ hpre
    rcases hx with hx | hx
    · obtain ⟨t, ht⟩ := (hasPref_iff _ _).mp hx
      refine ⟨str "http", t, Or.inl rfl, ht ▸ hB, ?_⟩
      rw [if_neg hpre, ht]
      rfl
    · obtain ⟨t, ht⟩ := (hasPref_iff _ _).mp hx
      refine ⟨str "https", t, Or.inr rfl, ht ▸ hB, ?_⟩
      rw [if_neg hpre, ht]
      rfl

theorem canonicalize_prefixed {x : Str}
    (hx : hasPref (str "http://") x = true ∨ hasPref (str "https://") x = true) :
    CanonicalizeURL x =
      (match goParse x with
       | none => x
       | some u =>
         urlString (if u.path = [] then { u with path := [47] } else u)) := by
  unfold CanonicalizeURL
  rw [if_neg (fun hh => hx.elim (fun h1 => hh.1 h1) (fun h2 => hh.2 h2))]

/-- C6: `CanonicalizeURL` is idempotent on byte strings. -/
theorem C6_idempotent (s : Str) (hB : Bytes s) :
    CanonicalizeURL (CanonicalizeURL s) = CanonicalizeURL s := by
  obtain ⟨sch, t, hschEq, hBst, hcs⟩ := canonicalize_step s hB
  rw [hcs]
  cases hps : goParse (sch ++ 58 :: 47 :: 47 :: t) with
  | none =>
    show CanonicalizeURL (sch ++ 58 :: 47 :: 47 :: t) =
      sch ++ 58 :: 47 :: 47 :: t
    have hpref : hasPref (str "http://") (sch ++ 58 :: 47 :: 47 :: t) = true ∨
        hasPref (str "https://") (sch ++ 58 :: 47 :: 47 :: t) = true := by
      rcases hschEq with h | h <;> rw [h]
      · exact Or.inl (hasPref_append (str "http://") t)
      · exact Or.inr (hasPref_append (str "https://") t)
    rw [canonicalize_prefixed hpref, hps]
  | some u =>
    show CanonicalizeURL
        (urlString (if u.path = [] then { u with path := [47] } else u)) =
      urlString (if u.path = [] then { u with path := [47] } else u)
    have inv := goParse_inv hschEq hBst hps
    have hW := urlString_normal (scheme_ne_nil inv.scheme_eq) inv.opq_nil
      inv.omit_false inv.path_head inv.rawPath_head
    have hpref : hasPref (str "http://")
        (urlString (if u.path = [] then { u with path := [47] } else u)) = true ∨
        hasPref (str "https://")
        (urlString (if u.path = [] then { u with path := [47] } else u)) = true := by
      rcases inv.scheme_eq with h | h <;> rw [hW, h]
      · exact Or.inl (hasPref_append (str "http://") _)
      · exact Or.inr (hasPref_append (str "https://") _)
    rw [canonicalize_prefixed hpref]
    cases hps2 : goParse
        (urlString (if u.path = [] then { u with path := [47] } else u)) with
    | none => rfl
    | some v =>
      show urlString (if v.path = [] then { v with path := [47] } else v) =
        urlString (if u.path = [] then { u with path := [47] } else u)
      exact goParse_roundtrip inv hps2

theorem C6_witness :
    Bytes (str "https://user:pw@example.com/a%20b?q=1#frag") ∧
      CanonicalizeURL (CanonicalizeURL
        (str "https://user:pw@example.com/a%20b?q=1#frag")) =
      CanonicalizeURL (str "https://user:pw@example.com/a%20b?q=1#frag") :=
  ⟨by decide, C6_idempotent _ (by decide)⟩

end IndieLib